import Mathlib

/-!
Verification of the command-analysis engine of krmcbride/claudecode-hooks.

Go strings are modelled as `List Char` (one entry per rune; all inputs in this
development are ASCII, where Go's byte length and rune length agree).  The
external shell-grammar parser (mvdan.cc/sh) together with the AST walk that
flattens a syntax tree into call expressions is modelled as an oracle
`parser : List Char → Except (List Char) (List CallExpr)`; every theorem about
the detector quantifies over this oracle or instantiates it with an explicit
table for the concrete inputs of a scenario.
-/

/-- Shorthand: the character list of a Lean string literal (a Go string). -/
def gs (s : String) : List Char := s.data

/-- Go `strings.HasPrefix s pre`. -/
def hasPrefixB (s pre : List Char) : Bool := pre.isPrefixOf s

/-- Go `strings.HasSuffix s suf`. -/
def hasSuffixB (s suf : List Char) : Bool := suf.isSuffixOf s

/-- Go `strings.Contains s sub` (true when `sub` occurs as a contiguous
substring of `s`; the empty string occurs in every string). -/
def containsB : (s sub : List Char) → Bool
  | [], sub => sub.isEmpty
  | c :: t, sub => sub.isPrefixOf (c :: t) || containsB t sub

/-- Go `strings.TrimSuffix s suf`. -/
def trimSuffixB (s suf : List Char) : List Char :=
  if hasSuffixB s suf then s.take (s.length - suf.length) else s

/-- Go `strings.TrimPrefix s pre`. -/
def trimPrefixB (s pre : List Char) : List Char :=
  if hasPrefixB s pre then s.drop pre.length else s

/-- ASCII lowering of one character: Go `strings.ToLower` restricted to the
ASCII range (every string this development evaluates is ASCII). -/
def lowerChar (c : Char) : Char :=
  if 'A' ≤ c ∧ c ≤ 'Z' then Char.ofNat (c.toNat + 32) else c

/-- Go `strings.ToLower` (ASCII fragment). -/
def toLowerB (s : List Char) : List Char := s.map lowerChar

/-- Go `strings.Join xs " "`. -/
def joinSpace (xs : List (List Char)) : List Char := List.intercalate [' '] xs

/-- Helper for `countB`: scan the haystack left to right; after a hit the next
`sub.length - 1` characters are skipped so that counting is non-overlapping,
exactly as Go `strings.Count` resumes searching after the match. -/
def countSkip : List Char → List Char → Nat → Nat
  | [], _, _ => 0
  | _ :: t, sub, k + 1 => countSkip t sub k
  | c :: t, sub, 0 =>
    if sub.isPrefixOf (c :: t) then 1 + countSkip t sub (sub.length - 1)
    else countSkip t sub 0

/-- Go `strings.Count s sub`: number of non-overlapping occurrences; for the
empty pattern Go returns the rune count plus one. -/
def countB (s sub : List Char) : Nat :=
  if sub.isEmpty then s.length + 1 else countSkip s sub 0

/-- Whitespace test used by Go `strings.Fields` (ASCII fragment of
`unicode.IsSpace`). -/
def isSpaceB (c : Char) : Bool :=
  c = ' ' || c = '\t' || c = '\n' || c = '\x0b' || c = '\x0c' || c = '\r'

/-- Go `strings.Fields s`: the maximal runs of non-whitespace characters. -/
def fieldsB (s : List Char) : List (List Char) :=
  (s.splitOnP isSpaceB).filter (fun w => w ≠ [])

/-- Go `path.Base`: the last element of a slash-separated path, with trailing
slashes removed first; `""` gives `"."` and an all-slash path gives `"/"`. -/
def pathBase (p : List Char) : List Char :=
  if p = [] then ['.']
  else
    let p1 := (p.reverse.dropWhile (fun c => c = '/')).reverse
    let p2 := (p1.reverse.takeWhile (fun c => c ≠ '/')).reverse
    if p2 = [] then ['/'] else p2

example : pathBase (gs "/usr/bin/git") = gs "git" := by decide
example : pathBase (gs "./git") = gs "git" := by decide
example : pathBase (gs "git.exe") = gs "git.exe" := by decide
example : pathBase (gs "/") = gs "/" := by decide
example : containsB (gs "aws s3api delete-bucket") (gs " delete-") = true := by decide
example : countB (gs "ababab") (gs "ab") = 3 := by decide
example : countB (gs "aaaa") (gs "aa") = 2 := by decide
example : fieldsB (gs " delete  pod ") = [gs "delete", gs "pod"] := by decide

/-!
### The word / call-expression data model

One `Word` of the mvdan.cc/sh syntax tree, restricted to the part variants the
detector's `resolveStaticWord` / `extractStringLiterals` switch on.  A part
inside double quotes is a `DqPart`; any variant the Go code does not name falls
to its `default` branch, modelled by the `otherPart` constructors.
-/

/-- A word part nested inside a `DblQuoted` part (`syntax.DblQuoted.Parts`). -/
inductive DqPart where
  | lit (s : List Char)
  | sglQuoted (s : List Char)
  | paramExp
  | cmdSubst
  | arithmExp
  | otherPart
deriving DecidableEq

/-- A top-level word part (`syntax.Word.Parts`). -/
inductive WordPart where
  | lit (s : List Char)
  | sglQuoted (s : List Char)
  | dblQuoted (parts : List DqPart)
  | paramExp
  | cmdSubst
  | arithmExp
  | procSubst
  | otherPart
deriving DecidableEq

/-- A `syntax.Word` is its list of parts (`nil` in Go is the empty list). -/
abbrev Word := List WordPart

/-- A `syntax.CallExpr`: the argument words, `args[0]` being the command. -/
structure CallExpr where
  args : List Word
deriving DecidableEq

/-- One step of `resolveStaticWord`'s inner switch over the parts of a
`DblQuoted`: literals accumulate, every other variant (including the `default`
branch that catches nested single quotes) marks the word dynamic. -/
def resolveDqStep (acc : List Char × Bool) (p : DqPart) : List Char × Bool :=
  match p with
  | .lit s => (acc.1 ++ s, acc.2)
  | .paramExp => (acc.1, false)
  | .cmdSubst => (acc.1, false)
  | .arithmExp => (acc.1, false)
  | .sglQuoted _ => (acc.1, false)
  | .otherPart => (acc.1, false)

/-- One step of `resolveStaticWord`'s switch over top-level word parts. -/
def resolveStep (acc : List Char × Bool) (p : WordPart) : List Char × Bool :=
  match p with
  | .lit s => (acc.1 ++ s, acc.2)
  | .sglQuoted s => (acc.1 ++ s, acc.2)
  | .dblQuoted ps => ps.foldl resolveDqStep acc
  | .paramExp => (acc.1, false)
  | .cmdSubst => (acc.1, false)
  | .arithmExp => (acc.1, false)
  | .procSubst => (acc.1, false)
  | .otherPart => (acc.1, false)

/-- `resolveStaticWord` (pkg/detector/shellparse.go): accumulate the literal
text of a word and report whether every part was static. -/
def resolveStaticWord (w : Word) : List Char × Bool :=
  w.foldl resolveStep ([], true)

/-- `extractFromDoubleQuoted` (string_literals_check.go): the literal and
single-quoted content of a double-quoted part, expansions skipped. -/
def extractFromDoubleQuoted (ps : List DqPart) : List Char :=
  ps.foldl
    (fun a p =>
      match p with
      | .lit s => a ++ s
      | .sglQuoted s => a ++ s
      | _ => a)
    []

/-- `extractStringLiterals` (string_literals_check.go): every non-empty string
literal of a word, in order. -/
def extractStringLiterals (w : Word) : List (List Char) :=
  w.foldl
    (fun acc p =>
      match p with
      | .lit s => if s ≠ [] then acc ++ [s] else acc
      | .sglQuoted s => if s ≠ [] then acc ++ [s] else acc
      | .dblQuoted ps =>
        let q := extractFromDoubleQuoted ps
        if q ≠ [] then acc ++ [q] else acc
      | _ => acc)
    []

example : resolveStaticWord [WordPart.lit (gs "git")] = (gs "git", true) := by decide
example : resolveStaticWord [WordPart.paramExp] = ([], false) := by decide
example :
    resolveStaticWord [WordPart.dblQuoted [DqPart.lit (gs "a"), DqPart.cmdSubst]] =
      (gs "a", false) := by decide
example :
    extractStringLiterals [WordPart.sglQuoted (gs "git push")] = [gs "git push"] := by decide

/-!
### Command matching utilities (pkg/detector/command_utils.go)
-/

/-- `normalizeCommand`: base name of the path, with a `.exe` suffix removed. -/
def normalizeCommand (cmd : List Char) : List Char :=
  trimSuffixB (pathBase cmd) (gs ".exe")

/-- The body shared by both generations of `isMatchingCommand`, parameterized
by that generation's `normalizeCommand`, with the self-recursion through the
`.exe`-stripping branch driven by a fuel counter.  It is run with fuel
`cmd.length`, which never runs out because each recursive step removes the
four characters `.exe`; the fuel-0 body is the same Go body with the (then
unreachable) `.exe` branch omitted. -/
def matchCmdAux (norm : List Char → List Char) (ruleCmd : List Char) :
    Nat → List Char → Bool
  | 0, cmd =>
    if cmd = ruleCmd then true
    else if hasSuffixB cmd ('/' :: ruleCmd) || hasSuffixB cmd ('\\' :: ruleCmd) then true
    else decide (norm cmd = ruleCmd)
  | fuel + 1, cmd =>
    if cmd = ruleCmd then true
    else if hasSuffixB cmd ('/' :: ruleCmd) || hasSuffixB cmd ('\\' :: ruleCmd) then true
    else if hasSuffixB cmd (gs ".exe") then
      matchCmdAux norm ruleCmd fuel (trimSuffixB cmd (gs ".exe"))
    else decide (norm cmd = ruleCmd)

/-- `isMatchingCommand` (command_utils.go): exact match, path-suffix match
(`/git`, `\git`), recursion after stripping `.exe`, else comparison of the
normalized name. -/
def isMatchingCommand (cmd ruleCmd : List Char) : Bool :=
  matchCmdAux normalizeCommand ruleCmd cmd.length cmd

/-- Any suffix is at most as long as the whole string. -/
theorem hasSuffixB_length_le {s suf : List Char} (h : hasSuffixB s suf = true) :
    suf.length ≤ s.length := by
  have : suf <:+ s := List.isSuffixOf_iff_suffix.mp h
  exact this.length_le

/-- A non-empty suffix never matches the empty string. -/
theorem hasSuffixB_nil {suf : List Char} (h : suf ≠ []) : hasSuffixB [] suf = false := by
  by_contra hc
  rw [Bool.not_eq_false] at hc
  exact h (List.suffix_nil.mp (List.isSuffixOf_iff_suffix.mp hc))

/-- Stripping a present non-empty suffix strictly shortens the string. -/
theorem trimSuffixB_length_lt {s suf : List Char} (h : hasSuffixB s suf = true)
    (hne : suf ≠ []) : (trimSuffixB s suf).length < s.length := by
  have hle := hasSuffixB_length_le h
  have hpos : 0 < suf.length := List.length_pos.mpr hne
  simp only [trimSuffixB, h, if_pos]
  simp [List.length_take]
  omega

/-- On the empty command, the `.exe` branch is never taken, so every fuel
computes the fuel-0 body. -/
theorem matchCmdAux_nil (norm : List Char → List Char) (ruleCmd : List Char) (fuel : Nat) :
    matchCmdAux norm ruleCmd fuel [] = matchCmdAux norm ruleCmd 0 [] := by
  cases fuel with
  | zero => rfl
  | succ f =>
    simp only [matchCmdAux,
      @hasSuffixB_nil (gs ".exe") (by decide), if_false, Bool.false_eq_true]

/-- The fuel used by `matchCmdAux` is irrelevant as soon as it is at least the
length of the command, so the fuel-driven definition satisfies the Go
function's self-recursive equation. -/
theorem matchCmdAux_stable (norm : List Char → List Char) (ruleCmd : List Char) :
    ∀ fuel fuel' cmd, cmd.length ≤ fuel → cmd.length ≤ fuel' →
      matchCmdAux norm ruleCmd fuel cmd = matchCmdAux norm ruleCmd fuel' cmd := by
  intro fuel
  induction fuel using Nat.strong_induction_on with
  | _ fuel ih =>
    intro fuel' cmd hf hf'
    match fuel, fuel' with
    | 0, 0 => rfl
    | 0, g + 1 =>
      have hcmd : cmd = [] := List.length_eq_zero.mp (Nat.le_zero.mp hf)
      subst hcmd
      exact (matchCmdAux_nil norm ruleCmd (g + 1)).symm
    | f + 1, 0 =>
      have hcmd : cmd = [] := List.length_eq_zero.mp (Nat.le_zero.mp hf')
      subst hcmd
      exact matchCmdAux_nil norm ruleCmd (f + 1)
    | f + 1, g + 1 =>
      simp only [matchCmdAux]
      by_cases h1 : cmd = ruleCmd
      · simp [h1]
      · simp only [h1, if_false]
        by_cases h2 : (hasSuffixB cmd ('/' :: ruleCmd) || hasSuffixB cmd ('\\' :: ruleCmd)) = true
        · simp [h2]
        · simp only [Bool.not_eq_true] at h2
          simp only [h2, if_false]
          by_cases h3 : hasSuffixB cmd (gs ".exe") = true
          · simp only [h3, if_true]
            have hlt := trimSuffixB_length_lt h3 (by decide)
            exact ih f (by omega) g (trimSuffixB cmd (gs ".exe")) (by omega) (by omega)
          · simp [h3]

/-- `isMatchingCommand` satisfies the Go source's recursive equation. -/
theorem isMatchingCommand_eq (cmd ruleCmd : List Char) :
    isMatchingCommand cmd ruleCmd =
      (if cmd = ruleCmd then true
       else if hasSuffixB cmd ('/' :: ruleCmd) || hasSuffixB cmd ('\\' :: ruleCmd) then true
       else if hasSuffixB cmd (gs ".exe") then
         isMatchingCommand (trimSuffixB cmd (gs ".exe")) ruleCmd
       else decide (normalizeCommand cmd = ruleCmd)) := by
  unfold isMatchingCommand
  match hl : cmd.length with
  | 0 =>
    have hcmd : cmd = [] := List.length_eq_zero.mp hl
    subst hcmd
    simp only [matchCmdAux,
      @hasSuffixB_nil (gs ".exe") (by decide), if_false, Bool.false_eq_true]
  | f + 1 =>
    simp only [matchCmdAux]
    by_cases h1 : cmd = ruleCmd
    · simp [h1]
    · simp only [h1, if_false]
      by_cases h2 : (hasSuffixB cmd ('/' :: ruleCmd) || hasSuffixB cmd ('\\' :: ruleCmd)) = true
      · simp [h2]
      · simp only [Bool.not_eq_true] at h2
        simp only [h2, if_false]
        by_cases h3 : hasSuffixB cmd (gs ".exe") = true
        · simp only [h3, if_true]
          have hlt := trimSuffixB_length_lt h3 (by decide)
          exact matchCmdAux_stable normalizeCommand ruleCmd f
            ((trimSuffixB cmd (gs ".exe")).length)
            (trimSuffixB cmd (gs ".exe")) (by omega) (le_refl _)
        · simp [h3]

/-- `isEchoCommand` (command_utils.go): the normalized name is `echo`. -/
def isEchoCommand (cmd : List Char) : Bool :=
  decide (normalizeCommand cmd = gs "echo")

/-- `hasBlockedPattern` (the pattern-matching utilities of the current
detector, see part_013/part_016): case-insensitive; `*` matches everything; a
pattern containing `*` is a prefix glob (`prefix*`) matched against the start
of the text or after a space; any other pattern is a substring match. -/
def hasBlockedPattern (text : List Char) (patterns : List (List Char)) : Bool :=
  if patterns.isEmpty then false
  else
    let textLower := toLowerB text
    patterns.any fun pattern =>
      if pattern = gs "*" then true
      else if containsB pattern (gs "*") then
        let pre := trimSuffixB (toLowerB pattern) (gs "*")
        hasPrefixB textLower pre || containsB textLower (' ' :: pre)
      else containsB textLower (toLowerB pattern)

example : isMatchingCommand (gs "/usr/bin/git") (gs "git") = true := by decide
example : isMatchingCommand (gs "git.exe") (gs "git") = true := by decide
example : isMatchingCommand (gs "pull") (gs "git") = false := by decide
example : hasBlockedPattern (gs "ec2 terminate-instances --instance-ids i-1")
    [gs "delete-*", gs "terminate-*"] = true := by decide
example : hasBlockedPattern (gs "pull") [gs "push"] = false := by decide
example : hasBlockedPattern (gs "DELETE pod x") [gs "delete"] = true := by decide

/-!
### The current command detector (pkg/detector/detector.go and companions)

State is made explicit: each check returns the blocked flag together with the
list of issues it appends (in order) to the detector's issue slice, and the
callers concatenate those deltas in program order.  No function of the Go
source reads the issue slice, so this is an exact model of the mutation.  The
recursion of `analyzeShellExprRecursive` into nested command strings is driven
by the remaining depth budget `fuel = maxDepth - currentDepth`: the Go entry
check `currentDepth+1 > maxDepth` is exactly `fuel = 0`, a descent passes
`fuel - 1`, and the deferred decrement is the caller resuming with its own
fuel. -/

/-- `CommandRule` (detector.go, current generation: no allow-exceptions). -/
structure CommandRule where
  blockedCommand : List Char
  blockedPatterns : List (List Char)
deriving DecidableEq

/-- A recorded issue (one entry of the detector's `issues` slice). -/
abbrev Issue := List Char

/-- The issue recorded when the depth guard fires. -/
def maxDepthIssue : Issue := gs "Maximum nesting depth exceeded - command too complex"

/-- The issue recorded for a dynamically-constructed command name. -/
def dynCmdIssue : Issue := gs "Command uses dynamic substitution - unable to verify safety"

/-- `checkDynamicCommand` (detector.go). -/
def checkDynamicCommand (cmdIsStatic : Bool) : Bool × List Issue :=
  if ¬ cmdIsStatic then (true, [dynCmdIssue]) else (false, [])

/-- `extractArguments` (part_013/part_014): resolve every argument word; at the
first dynamic one record `<command> uses dynamic subcommand`, drop the partial
result and report dynamic content. Returns (resolved args, hasDynamic, issue
delta). -/
def extractArguments (command : List Char) : List Word → List (List Char) × Bool × List Issue
  | [] => ([], false, [])
  | arg :: rest =>
    let r := resolveStaticWord arg
    if ¬ r.2 then ([], true, [command ++ gs " uses dynamic subcommand"])
    else
      match extractArguments command rest with
      | (_, true, iss) => ([], true, iss)
      | (res, false, iss) => (r.1 :: res, false, iss)

/-- The pattern-checking tail of `checkRuleMatch`, taking the result of
argument extraction (resolved values, dynamic flag, issue delta): dynamic
subcommands block; with non-empty patterns, a pattern hit or a `*` entry
blocks; the bare command is compared against the empty argument string. -/
def checkRulePatterns (rule : CommandRule) (ext : List (List Char) × Bool × List Issue) :
    Bool × List Issue :=
  if ext.2.1 then (true, ext.2.2)
  else
    let fullArgs := joinSpace ext.1
    if ¬ rule.blockedPatterns.isEmpty then
      if hasBlockedPattern fullArgs rule.blockedPatterns then
        (true, ext.2.2 ++ [gs "Blocked " ++ rule.blockedCommand ++ gs " pattern detected"])
      else if rule.blockedPatterns.contains (gs "*") then
        (true, ext.2.2 ++ [gs "Blocked " ++ rule.blockedCommand ++ gs " command"])
      else (false, ext.2.2)
    else (false, ext.2.2)

/-- `checkRuleMatch` (part_013/part_014, the current generation): arguments
beyond the command word are extracted and validated, then checked against the
rule's patterns by `checkRulePatterns`. -/
def checkRuleMatch (call : CallExpr) (cmd : List Char) (rule : CommandRule) :
    Bool × List Issue :=
  if ¬ isMatchingCommand cmd rule.blockedCommand then (false, [])
  else
    checkRulePatterns rule
      (match call.args with
       | _ :: rest@(_ :: _) => extractArguments rule.blockedCommand rest
       | _ => ([], false, []))

/-- `checkDirectCommand` (part_013/part_014): first rule that blocks wins;
issue deltas of evaluated rules are kept in order. -/
def checkDirectCommand (rules : List CommandRule) (call : CallExpr) (cmd : List Char) :
    Bool × List Issue :=
  match rules with
  | [] => (false, [])
  | r :: rs =>
    let p := checkRuleMatch call cmd r
    if p.1 then (true, p.2)
    else
      let q := checkDirectCommand rs call cmd
      (q.1, p.2 ++ q.2)

/-- `checkPatternInArgs` (part_013): `*` blocks outright; otherwise join the
static, non-empty, non-flag arguments and match the blocked patterns. -/
def checkPatternInArgs (args : List Word) (rule : CommandRule) : Bool :=
  if rule.blockedPatterns.isEmpty then false
  else if rule.blockedPatterns.contains (gs "*") then true
  else
    let argStrings := (args.map resolveStaticWord).filterMap fun r =>
      if r.2 && r.1 ≠ [] && ¬ hasPrefixB r.1 (gs "-") then some r.1 else none
    hasBlockedPattern (joinSpace argStrings) rule.blockedPatterns

/-- The rule loop inside `checkArgumentsForBlockedCommands`: the first rule
whose blocked command matches the argument and whose patterns match the
remaining arguments. -/
def findArgRuleHit (rules : List CommandRule) (argStr : List Char) (remaining : List Word) :
    Option CommandRule :=
  rules.find? fun rule =>
    isMatchingCommand argStr rule.blockedCommand && checkPatternInArgs remaining rule

/-- The outer loop of `checkArgumentsForBlockedCommands`, running over the
argument words after the command word. -/
def checkArgumentsLoop (rules : List CommandRule) : List Word → Bool × List Issue
  | [] => (false, [])
  | arg :: rest =>
    let r := resolveStaticWord arg
    if ¬ r.2 || r.1 = [] then checkArgumentsLoop rules rest
    else
      match findArgRuleHit rules r.1 rest with
      | some rule =>
        (true, [gs "Blocked command '" ++ rule.blockedCommand ++ gs "' found as argument"])
      | none => checkArgumentsLoop rules rest

/-- `checkArgumentsForBlockedCommands` (part_013 / string_analysis.go): scan
the arguments for a static word matching a configured blocked command and
re-apply the pattern check to what follows it. -/
def checkArgumentsForBlockedCommands (rules : List CommandRule) (call : CallExpr) :
    Bool × List Issue :=
  checkArgumentsLoop rules (call.args.drop 1)

/-- The string-executing command names of `analyzeStringLiterals`' switch. -/
def stringExecCommands : List (List Char) :=
  [gs "sh", gs "bash", gs "zsh", gs "ksh", gs "dash", gs "fish",
   gs "eval", gs "source", gs ".", gs "echo", gs "printf"]

/-- `looksLikeCommand` (string_literals_check.go): not a flag, not a single
word without shell metacharacters; everything else is treated as a command. -/
def looksLikeCommand (rules : List CommandRule) (str : List Char) : Bool :=
  if hasPrefixB str (gs "-") then false
  else if ¬ containsB str (gs " ") && ¬ containsB str (gs ";") &&
      ¬ containsB str (gs "|") && ¬ containsB str (gs "&") then false
  else if rules.any (fun r => hasPrefixB str (r.blockedCommand ++ gs " ")) then true
  else true

/-- `definitelyLooksLikeCommand` (string_literals_check.go): the stricter
filter for `echo`/`printf` content. -/
def definitelyLooksLikeCommand (rules : List CommandRule) (str : List Char) : Bool :=
  let startsWithCommand := rules.any fun r => hasPrefixB str (r.blockedCommand ++ gs " ")
  if ¬ startsWithCommand then
    if containsB str (gs ";") || containsB str (gs "&&") ||
        containsB str (gs "||") || containsB str (gs "|") then true
    else false
  else true

/-- The literal loop inside `analyzeStringLiterals`, for one argument's
extracted literals; `rec` is the enclosing recursive analysis at the current
depth.  Issues recorded by non-blocking recursive calls are retained. -/
def analyzeLiteralList (rules : List CommandRule) (rec : List Char → Bool × List Issue)
    (normalizedCmd : List Char) : List (List Char) → Bool × List Issue
  | [] => (false, [])
  | str :: rest =>
    let keep :=
      if normalizedCmd = gs "echo" ∨ normalizedCmd = gs "printf" then
        definitelyLooksLikeCommand rules str
      else looksLikeCommand rules str
    if ¬ keep then analyzeLiteralList rules rec normalizedCmd rest
    else
      let p := rec str
      if p.1 then (true, p.2 ++ [gs "Blocked command found in string: " ++ str])
      else
        let q := analyzeLiteralList rules rec normalizedCmd rest
        (q.1, p.2 ++ q.2)

/-- The argument loop inside `analyzeStringLiterals`. -/
def analyzeLiteralArgs (rules : List CommandRule) (rec : List Char → Bool × List Issue)
    (normalizedCmd : List Char) : List Word → Bool × List Issue
  | [] => (false, [])
  | arg :: rest =>
    let p := analyzeLiteralList rules rec normalizedCmd (extractStringLiterals arg)
    if p.1 then (true, p.2)
    else
      let q := analyzeLiteralArgs rules rec normalizedCmd rest
      (q.1, p.2 ++ q.2)

/-- `analyzeStringLiterals` (string_literals_check.go): for string-executing
commands, re-analyze each literal argument that looks like a command. The Go
code indexes `call.Args[0]`, which its caller guarantees exists; the empty
case is unreachable and returns no block. -/
def analyzeStringLiterals (rules : List CommandRule) (rec : List Char → Bool × List Issue)
    (call : CallExpr) : Bool × List Issue :=
  match call.args with
  | [] => (false, [])
  | a0 :: rest =>
    let cmd := (resolveStaticWord a0).1
    let normalizedCmd := normalizeCommand cmd
    if ¬ stringExecCommands.contains normalizedCmd then (false, [])
    else analyzeLiteralArgs rules rec normalizedCmd rest

/-!
### Obfuscation detection (part_013 / part_012, shared by both generations)
-/

/-- The base64 alphabet string of `isLikelyBase64`. -/
def base64Chars : List Char :=
  gs "ABCDEFGHIJKLMNOPQRSTUVWXYZabcdefghijklmnopqrstuvwxyz0123456789+/="

/-- `isLikelyBase64`: length at least 8 and more than 90% of the characters in
the base64 alphabet.  Go compares `float64(valid)/float64(len) > 0.9`; on the
(rational) inputs this development evaluates the comparison agrees with the
exact `10*valid > 9*len`. -/
def isLikelyBase64 (s : List Char) : Bool :=
  if s.length < 8 then false
  else
    let validChars := (s.filter (fun c => base64Chars.contains c)).length
    decide (validChars * 10 > s.length * 9)

/-- `isLikelyHexEncoded`: even length at least 6, all hex digits. -/
def isLikelyHexEncoded (s : List Char) : Bool :=
  if s.length < 6 || s.length % 2 ≠ 0 then false
  else s.all fun c =>
    ('0' ≤ c && c ≤ '9') || ('a' ≤ c && c ≤ 'f') || ('A' ≤ c && c ≤ 'F')

/-- `containsReversePattern`: reversal-utility names or reversed fragments. -/
def containsReversePattern (s : List Char) : Bool :=
  let lowerS := toLowerB s
  [gs "rev", gs "tac", gs "hsup", gs "tig"].any fun pattern => containsB lowerS pattern

/-- `containsSubstitutionPattern`: more than two `${` groups with a closing
brace, or more than four of one quote character together with a git-related
fragment. -/
def containsSubstitutionPattern (s : List Char) : Bool :=
  if countB s (gs "$\x7b") > 2 && containsB s (gs "\x7d") then true
  else if countB s (gs "\"") > 4 || countB s (gs "\'") > 4 then
    containsB (toLowerB s) (gs "git") || containsB (toLowerB s) (gs "push")
  else false

/-- `detectObfuscation`: evaluate all four heuristics, collecting one issue per
heuristic that fires. -/
def detectObfuscation (s : List Char) : Bool × List Issue :=
  let l1 : List Issue := if isLikelyBase64 s then [gs "Possible base64 encoded content"] else []
  let l2 : List Issue := if isLikelyHexEncoded s then [gs "Possible hex encoded content"] else []
  let l3 : List Issue :=
    if containsReversePattern s then [gs "Possible reverse string obfuscation"] else []
  let l4 : List Issue :=
    if containsSubstitutionPattern s then [gs "Possible character substitution obfuscation"] else []
  (isLikelyBase64 s || isLikelyHexEncoded s || containsReversePattern s ||
    containsSubstitutionPattern s, l1 ++ l2 ++ l3 ++ l4)

/-- `collectStaticContent`: concatenate every non-empty statically resolved
argument value, each followed by a space. -/
def collectStaticContent (call : CallExpr) : List Char :=
  call.args.foldl
    (fun acc arg =>
      let r := resolveStaticWord arg
      if r.2 && r.1 ≠ [] then acc ++ r.1 ++ [' '] else acc)
    []

/-- The argument loop of `checkEchoEscapes`. -/
def echoEscapesLoop : List Word → Bool × List Issue
  | [] => (false, [])
  | arg :: rest =>
    let argStr := (resolveStaticWord arg).1
    if containsB argStr (gs "\\x") || containsB argStr (gs "\\0") then
      (true, [gs "echo with escape sequences detected (possible obfuscation)"])
    else if argStr = gs "-e" then
      (true, [gs "echo -e detected which enables escape sequences"])
    else echoEscapesLoop rest

/-- `checkEchoEscapes` (part_013): hex/octal escapes or `-e` in an echo
command's arguments. -/
def checkEchoEscapes (call : CallExpr) : Bool × List Issue :=
  match call.args with
  | [] => (false, [])
  | a0 :: rest =>
    if ¬ isEchoCommand (resolveStaticWord a0).1 then (false, [])
    else echoEscapesLoop rest

/-- `checkObfuscation` (part_013): obfuscation heuristics over the collected
static content, then the echo-escape check. -/
def checkObfuscation (call : CallExpr) : Bool × List Issue :=
  let content := collectStaticContent call
  let p := detectObfuscation content
  if p.1 then (true, p.2) else checkEchoEscapes call

/-- `shouldBlockCallExpr` (detector.go): the per-call pipeline, in program
order, with every check's issue delta retained. -/
def shouldBlockCallExprAux (rules : List CommandRule) (rec : List Char → Bool × List Issue)
    (call : CallExpr) : Bool × List Issue :=
  match call.args with
  | [] => (false, [])
  | a0 :: _ =>
    let r := resolveStaticWord a0
    let c0 := checkDynamicCommand r.2
    if c0.1 then (true, c0.2)
    else
      let c1 := checkDirectCommand rules call r.1
      if c1.1 then (true, c0.2 ++ c1.2)
      else
        let c2 := checkArgumentsForBlockedCommands rules call
        if c2.1 then (true, c0.2 ++ c1.2 ++ c2.2)
        else
          let c3 := analyzeStringLiterals rules rec call
          if c3.1 then (true, c0.2 ++ c1.2 ++ c2.2 ++ c3.2)
          else
            let c4 := checkObfuscation call
            (c4.1, c0.2 ++ c1.2 ++ c2.2 ++ c3.2 ++ c4.2)

/-- `slices.ContainsFunc calls shouldBlockCallExpr`: stop at the first
blocking call, keeping every issue recorded so far. -/
def analyzeCallsAux (rules : List CommandRule) (rec : List Char → Bool × List Issue) :
    List CallExpr → Bool × List Issue
  | [] => (false, [])
  | c :: cs =>
    let p := shouldBlockCallExprAux rules rec c
    if p.1 then (true, p.2)
    else
      let q := analyzeCallsAux rules rec cs
      (q.1, p.2 ++ q.2)

/-- `parseShellExpression` (pkg/detector/shellparse.go) composed with
`extractCallExprs`: the external parser's failure message is wrapped with
`failed to parse shell expression: `; a successful parse yields the flattened
call expressions of the syntax tree (the depth-first `syntax.Walk`). -/
def parseShellExpression (parser : List Char → Except (List Char) (List CallExpr))
    (shellExpr : List Char) : Except (List Char) (List CallExpr) :=
  match parser shellExpr with
  | .error e => .error (gs "failed to parse shell expression: " ++ e)
  | .ok calls => .ok calls

/-- `analyzeShellExprRecursive` (detector.go), driven by the remaining depth
budget: at fuel 0 the Go guard `currentDepth+1 > maxDepth` fires and blocks
with the max-depth issue; otherwise parse (a failure blocks with the wrapped
parser message) and scan the extracted calls, nested analyses running with one
unit of fuel less. -/
def analyzeShellExprRecursive (rules : List CommandRule)
    (parser : List Char → Except (List Char) (List CallExpr)) :
    Nat → List Char → Bool × List Issue
  | 0, _ => (true, [maxDepthIssue])
  | fuel + 1, shellExpr =>
    match parseShellExpression parser shellExpr with
    | .error e => (true, [gs "Unable to parse shell expression: " ++ e])
    | .ok calls => analyzeCallsAux rules (analyzeShellExprRecursive rules parser fuel) calls

/-- `CommandDetector` (detector.go): rules, depth bound and per-call state. -/
structure CommandDetector where
  commandRules : List CommandRule
  maxDepth : Nat
  issues : List Issue
  currentDepth : Nat
deriving DecidableEq

/-- `NewCommandDetector`: a non-positive depth bound normalizes to 10. -/
def NewCommandDetector (rules : List CommandRule) (maxDepth : Int) : CommandDetector :=
  { commandRules := rules
    maxDepth := if maxDepth ≤ 0 then 10 else maxDepth.toNat
    issues := []
    currentDepth := 0 }

/-- `GetIssues`: the recorded issues (Go returns a defensive copy, and `nil`
for the empty slice; both are the list itself in this model). -/
def GetIssues (d : CommandDetector) : List Issue := d.issues

/-- `ShouldBlockShellExpr` (detector.go): reset depth and issues, then run the
recursive analysis with the full depth budget; the deferred decrements leave
`currentDepth` at 0 on return. -/
def ShouldBlockShellExpr (parser : List Char → Except (List Char) (List CallExpr))
    (d : CommandDetector) (shellExpr : List Char) : Bool × CommandDetector :=
  let p := analyzeShellExprRecursive d.commandRules parser d.maxDepth shellExpr
  (p.1, { d with issues := p.2, currentDepth := 0 })

/-!
### A concrete parser oracle for the scenario inputs

`scenarioOracle` tabulates, input text by input text, what the external
mvdan parser and the `syntax.Walk` call extraction produce on the concrete
shell expressions of the spec's scenarios (one simple call each, words split
on spaces, quoted arguments as quoted word parts).
-/

/-- A one-literal word. -/
def wl (s : String) : Word := [WordPart.lit (gs s)]

/-- The scenario parse table (see the module comment above). -/
def scenarioOracle (s : List Char) : Except (List Char) (List CallExpr) :=
  if s = gs "git push" then .ok [⟨[wl "git", wl "push"]⟩]
  else if s = gs "git push origin main" then
    .ok [⟨[wl "git", wl "push", wl "origin", wl "main"]⟩]
  else if s = gs "git pull" then .ok [⟨[wl "git", wl "pull"]⟩]
  else if s = gs "/usr/bin/git push" then .ok [⟨[wl "/usr/bin/git", wl "push"]⟩]
  else if s = gs "./git push" then .ok [⟨[wl "./git", wl "push"]⟩]
  else if s = gs "git.exe push" then .ok [⟨[wl "git.exe", wl "push"]⟩]
  else if s = gs "aws ec2 terminate-instances --instance-ids i-1" then
    .ok [⟨[wl "aws", wl "ec2", wl "terminate-instances", wl "--instance-ids", wl "i-1"]⟩]
  else if s = gs "$CMD push" then .ok [⟨[[WordPart.paramExp], wl "push"]⟩]
  else if s = gs "kubectl delete pod x" then
    .ok [⟨[wl "kubectl", wl "delete", wl "pod", wl "x"]⟩]
  else if s = gs "kubectl delete namespace x" then
    .ok [⟨[wl "kubectl", wl "delete", wl "namespace", wl "x"]⟩]
  else if s = gs "bash -c \"git push\"" then
    .ok [⟨[wl "bash", wl "-c", [WordPart.dblQuoted [DqPart.lit (gs "git push")]]]⟩]
  else .error (gs "unexpected token")

/-- The git-push rule set of the scenarios. -/
def gitRules : List CommandRule := [⟨gs "git", [gs "push"]⟩]

example :
    (ShouldBlockShellExpr scenarioOracle (NewCommandDetector gitRules 10) (gs "git push")).1 =
      true := by decide
example :
    (ShouldBlockShellExpr scenarioOracle (NewCommandDetector gitRules 10) (gs "git pull")).1 =
      false := by decide
example :
    (ShouldBlockShellExpr scenarioOracle (NewCommandDetector gitRules 10)
      (gs "bash -c \"git push\"")).1 = true := by decide
example :
    (ShouldBlockShellExpr scenarioOracle (NewCommandDetector [] 10) (gs "$CMD push")) =
      (true, { commandRules := [], maxDepth := 10, issues := [dynCmdIssue],
               currentDepth := 0 }) := by decide

/-!
### An adversarially nested input family

`shNest n` is a family of shell expressions nested `n` interpreter layers
deep: `shNest (n+1)` is a text whose parse is the single call
`sh -c '<shNest n>'`, and the innermost text parses to a plain two-word call.
`nestOracle` is the corresponding behavior of the external parser.
-/

/-- The nested input family (the leading `s` marks one nesting layer). -/
def shNest : Nat → List Char
  | 0 => gs "a b"
  | n + 1 => 's' :: shNest n

/-- The parser behavior on the nested family: one `sh -c '…'` call per
layer, whose single-quoted literal is the next layer's text. -/
def nestOracle (s : List Char) : Except (List Char) (List CallExpr) :=
  match s with
  | 's' :: rest => .ok [⟨[wl "sh", wl "-c", [WordPart.sglQuoted rest]]⟩]
  | _ => .ok [⟨[[WordPart.lit s]]⟩]

example :
    (ShouldBlockShellExpr nestOracle (NewCommandDetector [] 10) (shNest 50)).1 = true := by
  decide
example :
    (GetIssues (ShouldBlockShellExpr nestOracle (NewCommandDetector [] 10)
      (shNest 50)).2).contains maxDepthIssue = true := by decide

/-!
### The earlier detector generation with allow-exceptions (`ShouldBlockCommand`)

The repository also carries the earlier generation of the detector (the second
half of detector.go, with part_010's classification helpers and part_016's
substring matchers), whose `CommandRule` has `AllowExceptions` and whose
per-call pipeline routes through shell-interpreter / eval / execution-pattern
checks.  Its package-local `extractShellCommands` and `analyzeEvalCommand`
helpers are not among the retrieved sources (the exported `shellparse`
homologues are), so the embedding takes them as parameters `extSh` / `extEval`
and every theorem below holds for every implementation of them.
-/

namespace V2

/-- `CommandRule` of the allow-exceptions generation. -/
structure CommandRule where
  command : List Char
  blockedPatterns : List (List Char)
  allowExceptions : List (List Char)
  description : List Char
deriving DecidableEq

/-- `normalizeCommand` (part_010): strip the common path prefixes
`/usr/bin/`, `/bin/`, `/usr/local/bin/` in that order, then a `.exe` suffix. -/
def normalizeCommand (cmd : List Char) : List Char :=
  trimSuffixB
    (trimPrefixB (trimPrefixB (trimPrefixB cmd (gs "/usr/bin/")) (gs "/bin/"))
      (gs "/usr/local/bin/"))
    (gs ".exe")

/-- `isMatchingCommand` (part_010): same recursion as the current generation,
over part_010's `normalizeCommand`. -/
def isMatchingCommand (cmd ruleCmd : List Char) : Bool :=
  matchCmdAux normalizeCommand ruleCmd cmd.length cmd

/-- The `shellInterpreters` table (part_010). -/
def shellInterpreters : List (List Char) :=
  [gs "sh", gs "bash", gs "zsh", gs "ksh", gs "fish", gs "dash",
   gs "ash", gs "csh", gs "tcsh"]

/-- `isShellInterpreter` (part_010). -/
def isShellInterpreter (cmd : List Char) : Bool :=
  shellInterpreters.contains (normalizeCommand cmd)

/-- `isEvalCommand` (part_010): the raw command name, not normalized. -/
def isEvalCommand (cmd : List Char) : Bool :=
  [gs "eval", gs "source", gs "."].contains cmd

/-- `isXargsCommand` (part_010). -/
def isXargsCommand (cmd : List Char) : Bool :=
  let n := normalizeCommand cmd
  decide (n = gs "xargs") || hasSuffixB n (gs "/xargs")

/-- `isFindCommand` (part_010). -/
def isFindCommand (cmd : List Char) : Bool :=
  let n := normalizeCommand cmd
  decide (n = gs "find") || hasSuffixB n (gs "/find")

/-- `isParallelCommand` (part_010). -/
def isParallelCommand (cmd : List Char) : Bool :=
  containsB (normalizeCommand cmd) (gs "parallel")

/-- `isEchoCommand` (part_010). -/
def isEchoCommand (cmd : List Char) : Bool :=
  let n := normalizeCommand cmd
  decide (n = gs "echo") || hasSuffixB n (gs "/echo")

/-- `matchesAllWords` (part_016): every whitespace-separated word of the
pattern occurs (case-insensitively) somewhere in the text. -/
def matchesAllWords (text pattern : List Char) : Bool :=
  (fieldsB (toLowerB pattern)).all fun word => containsB text word

/-- `hasAllowException` (part_016): some exception has all its words in the
lowercased text. -/
def hasAllowException (text : List Char) (exceptions : List (List Char)) : Bool :=
  if exceptions.isEmpty then false
  else
    let textLower := toLowerB text
    exceptions.any fun exception => matchesAllWords textLower exception

/-- `hasBlockedPattern` (part_016, this generation): case-insensitive
substring matching only. -/
def hasBlockedPattern (text : List Char) (patterns : List (List Char)) : Bool :=
  if patterns.isEmpty then false
  else
    let textLower := toLowerB text
    patterns.any fun pattern => containsB textLower (toLowerB pattern)

/-- `checkRuleMatch` (detector.go, allow-exceptions generation): needs at
least one argument; a dynamic argument blocks; a matching allow-exception
suppresses the rule before the blocked patterns are consulted. -/
def checkRuleMatch (call : CallExpr) (cmd : List Char) (rule : CommandRule) :
    Bool × List Issue :=
  if ¬ isMatchingCommand cmd rule.command then (false, [])
  else if call.args.length < 2 then (false, [])
  else
    let ext := extractArguments rule.command (call.args.drop 1)
    if ext.2.1 then (true, ext.2.2)
    else
      let fullArgs := joinSpace ext.1
      if hasAllowException fullArgs rule.allowExceptions then (false, ext.2.2)
      else if hasBlockedPattern fullArgs rule.blockedPatterns then
        (true, ext.2.2 ++ [gs "Blocked " ++ rule.command ++ gs " pattern detected"])
      else (false, ext.2.2)

/-- `checkDirectCommand` (allow-exceptions generation). -/
def checkDirectCommand (rules : List CommandRule) (call : CallExpr) (cmd : List Char) :
    Bool × List Issue :=
  match rules with
  | [] => (false, [])
  | r :: rs =>
    let p := checkRuleMatch call cmd r
    if p.1 then (true, p.2)
    else
      let q := checkDirectCommand rs call cmd
      (q.1, p.2 ++ q.2)

/-- The wrapped-command loop of `checkShellInterpreter`. -/
def shellLoop (rec : List Char → Bool × List Issue) : List (List Char) → Bool × List Issue
  | [] => (false, [])
  | s :: ss =>
    let p := rec s
    if p.1 then (true, p.2 ++ [gs "Blocked command in shell: " ++ s])
    else
      let q := shellLoop rec ss
      (q.1, p.2 ++ q.2)

/-- `checkShellInterpreter` (detector.go, allow-exceptions generation): a
shell interpreter is always blocked; the wrapped commands extracted by the
(parameterized) `extractShellCommands` are analyzed first for a more specific
issue. -/
def checkShellInterpreter (extSh : CallExpr → List (List Char) × Bool)
    (rec : List Char → Bool × List Issue) (call : CallExpr) (cmd : List Char) :
    Bool × List Issue :=
  if ¬ isShellInterpreter cmd then (false, [])
  else
    let base : List Issue := [gs "Shell interpreter detected: " ++ cmd]
    let commands := (extSh call).1
    if commands ≠ [] then
      let p := shellLoop rec commands
      (true, base ++ p.2)
    else (true, base)

/-- The eval-content loop of `checkEvalCommand`. -/
def evalLoop (rec : List Char → Bool × List Issue) : List (List Char) → Bool × List Issue
  | [] => (false, [])
  | s :: ss =>
    let p := rec s
    if p.1 then (true, p.2 ++ [gs "Blocked command in eval: " ++ s])
    else
      let q := evalLoop rec ss
      (q.1, p.2 ++ q.2)

/-- `checkEvalCommand` (detector.go, allow-exceptions generation): eval and
source commands are always blocked, their (parameterized) extracted content
analyzed first. -/
def checkEvalCommand (extEval : CallExpr → List (List Char))
    (rec : List Char → Bool × List Issue) (call : CallExpr) (cmd : List Char) :
    Bool × List Issue :=
  if ¬ isEvalCommand cmd then (false, [])
  else
    let base : List Issue := [gs "Eval/source command detected: " ++ cmd]
    let evalContent := extEval call
    if evalContent ≠ [] then
      let p := evalLoop rec evalContent
      (true, base ++ p.2)
    else (true, base)

/-- The argument loop of `checkXargsCommand`: the first argument matching a
configured command. -/
def xargsLoop (rules : List CommandRule) : List Word → Bool × List Issue
  | [] => (false, [])
  | arg :: rest =>
    let argStr := (resolveStaticWord arg).1
    match rules.find? (fun rule => isMatchingCommand argStr rule.command) with
    | some _ => (true, [gs "Blocked command passed to xargs: " ++ argStr])
    | none => xargsLoop rules rest

/-- `checkXargsCommand` (detector.go, allow-exceptions generation): xargs is
always blocked; a blocked command among its arguments adds a specific issue. -/
def checkXargsCommand (rules : List CommandRule) (call : CallExpr) (cmd : List Char) :
    Bool × List Issue :=
  if ¬ isXargsCommand cmd then (false, [])
  else
    let base : List Issue := [gs "xargs command detected which can execute piped commands"]
    let p := xargsLoop rules (call.args.drop 1)
    (true, base ++ p.2)

/-- `checkFindExecCommand` (detector.go, allow-exceptions generation): only a
`find` with an `-exec`-family flag is blocked; the argument two positions
after the flag is checked against the configured commands. -/
def checkFindExecCommand (rules : List CommandRule) (call : CallExpr) (cmd : List Char) :
    Bool × List Issue :=
  if ¬ isFindCommand cmd then (false, [])
  else
    let tail := call.args.drop 1
    match tail.findIdx? (fun arg =>
        let s := (resolveStaticWord arg).1
        decide (s = gs "-exec") || decide (s = gs "-execdir") || decide (s = gs "-ok")) with
    | none => (false, [])
    | some execIndex =>
      let base : List Issue := [gs "find with -exec detected which can execute commands"]
      if execIndex + 2 < call.args.length then
        let nextArg := (resolveStaticWord (call.args.getD (execIndex + 2) [])).1
        match rules.find? (fun rule => isMatchingCommand nextArg rule.command) with
        | some _ => (true, base ++ [gs "Blocked command in find -exec: " ++ nextArg])
        | none => (true, base)
      else (true, base)

/-- `checkParallelCommand` (detector.go, allow-exceptions generation). -/
def checkParallelCommand (cmd : List Char) : Bool × List Issue :=
  if isParallelCommand cmd then
    (true, [gs "GNU parallel detected which can execute multiple commands"])
  else (false, [])

/-- `checkExecutionPatterns` (detector.go, allow-exceptions generation). -/
def checkExecutionPatterns (rules : List CommandRule) (call : CallExpr) (cmd : List Char) :
    Bool × List Issue :=
  let p := checkXargsCommand rules call cmd
  if p.1 then (true, p.2)
  else
    let q := checkFindExecCommand rules call cmd
    if q.1 then (true, p.2 ++ q.2)
    else
      let r := checkParallelCommand cmd
      (r.1, p.2 ++ q.2 ++ r.2)

/-- The argument loop of this generation's `checkEchoEscapes` (same body as
the current generation's, over part_010's `isEchoCommand`). -/
def checkEchoEscapes (call : CallExpr) : Bool × List Issue :=
  match call.args with
  | [] => (false, [])
  | a0 :: rest =>
    if ¬ isEchoCommand (resolveStaticWord a0).1 then (false, [])
    else echoEscapesLoop rest

/-- `checkObfuscation` (detector.go, allow-exceptions generation): identical
heuristics over the collected static content, then the echo-escape check. -/
def checkObfuscation (call : CallExpr) : Bool × List Issue :=
  let content := collectStaticContent call
  let p := detectObfuscation content
  if p.1 then (true, p.2) else checkEchoEscapes call

/-- `analyzeCallExpr` (detector.go, allow-exceptions generation): dynamic
command, direct rules, shell interpreters, eval commands, execution patterns,
obfuscation, in program order. -/
def analyzeCallExpr (rules : List CommandRule) (extSh : CallExpr → List (List Char) × Bool)
    (extEval : CallExpr → List (List Char)) (rec : List Char → Bool × List Issue)
    (call : CallExpr) : Bool × List Issue :=
  match call.args with
  | [] => (false, [])
  | a0 :: _ =>
    let r := resolveStaticWord a0
    let c0 := checkDynamicCommand r.2
    if c0.1 then (true, c0.2)
    else
      let c1 := checkDirectCommand rules call r.1
      if c1.1 then (true, c0.2 ++ c1.2)
      else
        let c2 := checkShellInterpreter extSh rec call r.1
        if c2.1 then (true, c0.2 ++ c1.2 ++ c2.2)
        else
          let c3 := checkEvalCommand extEval rec call r.1
          if c3.1 then (true, c0.2 ++ c1.2 ++ c2.2 ++ c3.2)
          else
            let c4 := checkExecutionPatterns rules call r.1
            if c4.1 then (true, c0.2 ++ c1.2 ++ c2.2 ++ c3.2 ++ c4.2)
            else
              let c5 := checkObfuscation call
              (c5.1, c0.2 ++ c1.2 ++ c2.2 ++ c3.2 ++ c4.2 ++ c5.2)

/-- `slices.ContainsFunc calls analyzeCallExpr` for this generation. -/
def analyzeCalls (rules : List CommandRule) (extSh : CallExpr → List (List Char) × Bool)
    (extEval : CallExpr → List (List Char)) (rec : List Char → Bool × List Issue) :
    List CallExpr → Bool × List Issue
  | [] => (false, [])
  | c :: cs =>
    let p := analyzeCallExpr rules extSh extEval rec c
    if p.1 then (true, p.2)
    else
      let q := analyzeCalls rules extSh extEval rec cs
      (q.1, p.2 ++ q.2)

/-- `analyzeCommandRecursive` (detector.go, allow-exceptions generation),
fuel-driven exactly as the current generation's. -/
def analyzeCommandRecursive (rules : List CommandRule)
    (parser : List Char → Except (List Char) (List CallExpr))
    (extSh : CallExpr → List (List Char) × Bool) (extEval : CallExpr → List (List Char)) :
    Nat → List Char → Bool × List Issue
  | 0, _ => (true, [maxDepthIssue])
  | fuel + 1, shellExpr =>
    match parseShellExpression parser shellExpr with
    | .error e => (true, [gs "Unable to parse shell expression: " ++ e])
    | .ok calls =>
      analyzeCalls rules extSh extEval
        (analyzeCommandRecursive rules parser extSh extEval fuel) calls

/-- `ShouldBlockCommand` (detector.go, allow-exceptions generation): reset
state and run the recursive analysis with the full depth budget (a
non-positive configured bound is normalized to 10 by `NewCommandDetector`). -/
def ShouldBlockCommand (parser : List Char → Except (List Char) (List CallExpr))
    (extSh : CallExpr → List (List Char) × Bool) (extEval : CallExpr → List (List Char))
    (rules : List CommandRule) (maxDepth : Int) (command : List Char) : Bool × List Issue :=
  analyzeCommandRecursive rules parser extSh extEval
    (if maxDepth ≤ 0 then 10 else maxDepth.toNat) command

end V2

/-- The kubectl rule with an allow-exception, from the spec's scenario 4. -/
def kubectlRule : V2.CommandRule :=
  ⟨gs "kubectl", [gs "delete"], [gs "delete pod"], gs "Block kubectl delete"⟩

/-!
### The block/issue invariant of the current detector

`goodIssues` is the invariant threaded through every check of the current
generation: a blocking result carries at least one issue, and every recorded
issue is a non-empty string.
-/

/-- Blocking implies a recorded issue, and no recorded issue is empty. -/
abbrev goodIssues (p : Bool × List Issue) : Prop :=
  (p.1 = true → p.2 ≠ []) ∧ ∀ i ∈ p.2, i ≠ []

theorem goodIssues_false_nil : goodIssues (false, []) := by
  constructor
  · intro h
    cases h
  · intro i hi
    cases hi

theorem checkDynamicCommand_good (b : Bool) : goodIssues (checkDynamicCommand b) := by
  cases b
  · refine ⟨fun _ => ?_, fun i hi => ?_⟩
    · simp [checkDynamicCommand]
    · simp only [checkDynamicCommand] at hi
      simp at hi
      subst hi
      decide
  · exact goodIssues_false_nil

theorem extractArguments_good (c : List Char) (args : List Word) :
    ((extractArguments c args).2.1 = true → (extractArguments c args).2.2 ≠ []) ∧
      ∀ i ∈ (extractArguments c args).2.2, i ≠ [] := by
  induction args with
  | nil =>
    refine ⟨fun h => ?_, fun i hi => ?_⟩
    · simp [extractArguments] at h
    · simp [extractArguments] at hi
  | cons arg rest ih =>
    simp only [extractArguments]
    by_cases hst : (resolveStaticWord arg).2 = true
    · simp only [hst, not_true, if_neg, Bool.not_eq_true]
      match hext : extractArguments c rest with
      | (res, true, iss) =>
        rw [hext] at ih
        simpa using ih
      | (res, false, iss) =>
        rw [hext] at ih
        simpa using ih
    · simp only [Bool.not_eq_true] at hst
      simp only [hst]
      refine ⟨fun _ => ?_, fun i hi => ?_⟩
      · simp
      · simp at hi
        subst hi
        simp [gs]

/-- Sequencing a non-blocking stage: the accumulated issues `A` (all
non-empty) precede the issues of the continuation. -/
theorem goodIssues_seq {A B : List Issue} {b : Bool} (hA : ∀ i ∈ A, i ≠ [])
    (hq : goodIssues (b, B)) : goodIssues (b, A ++ B) := by
  refine ⟨(fun h => ?_), fun i hi => ?_⟩
  · intro hc
    rw [List.append_eq_nil] at hc
    exact hq.1 h hc.2
  · rw [List.mem_append] at hi
    rcases hi with hi | hi
    · exact hA i hi
    · exact hq.2 i hi

/-- A blocking outcome whose issue list ends in a fresh non-empty issue. -/
theorem goodIssues_block {A : List Issue} (hA : ∀ i ∈ A, i ≠ []) {x : Issue}
    (hx : x ≠ []) : goodIssues (true, A ++ [x]) := by
  refine ⟨(fun _ => by simp), fun i hi => ?_⟩
  rw [List.mem_append] at hi
  rcases hi with hi | hi
  · exact hA i hi
  · simp at hi
    subst hi
    exact hx

/-- A blocking outcome with non-empty accumulated issues in front. -/
theorem goodIssues_true_append {A B : List Issue} (hA : ∀ i ∈ A, i ≠ [])
    (hB : B ≠ []) (hBm : ∀ i ∈ B, i ≠ []) : goodIssues (true, A ++ B) := by
  refine ⟨(fun _ => ?_), fun i hi => ?_⟩
  · intro hc
    rw [List.append_eq_nil] at hc
    exact hB hc.2
  · rw [List.mem_append] at hi
    rcases hi with hi | hi
    · exact hA i hi
    · exact hBm i hi

/-- `checkRulePatterns` preserves the invariant for any extraction triple
that satisfies it. -/
theorem checkRulePatterns_good (rule : CommandRule)
    (ext : List (List Char) × Bool × List Issue)
    (hE : (ext.2.1 = true → ext.2.2 ≠ []) ∧ ∀ i ∈ ext.2.2, i ≠ []) :
    goodIssues (checkRulePatterns rule ext) := by
  unfold checkRulePatterns
  by_cases hdyn : ext.2.1 = true
  · simp only [hdyn, if_true]
    exact ⟨fun _ => hE.1 hdyn, hE.2⟩
  · simp only [Bool.not_eq_true] at hdyn
    rw [if_neg (by simp [hdyn])]
    by_cases hne : rule.blockedPatterns.isEmpty = true
    · rw [if_neg (by simp [hne])]
      exact ⟨(fun h => by cases h), hE.2⟩
    · rw [if_pos (by simp [hne])]
      by_cases hbp : hasBlockedPattern (joinSpace ext.1) rule.blockedPatterns = true
      · rw [if_pos hbp]
        exact goodIssues_block hE.2 (by simp [gs])
      · rw [if_neg hbp]
        by_cases hw : rule.blockedPatterns.contains (gs "*") = true
        · rw [if_pos hw]
          exact goodIssues_block hE.2 (by simp [gs])
        · rw [if_neg hw]
          exact ⟨(fun h => by cases h), hE.2⟩

theorem checkRuleMatch_good (call : CallExpr) (cmd : List Char) (rule : CommandRule) :
    goodIssues (checkRuleMatch call cmd rule) := by
  unfold checkRuleMatch
  by_cases hm : isMatchingCommand cmd rule.blockedCommand = true
  · rw [if_neg (by simp [hm])]
    match call.args with
    | [] =>
      exact checkRulePatterns_good rule ([], false, [])
        ⟨(fun h => by cases h), (by simp)⟩
    | [a0] =>
      exact checkRulePatterns_good rule ([], false, [])
        ⟨(fun h => by cases h), (by simp)⟩
    | a0 :: a1 :: rest =>
      exact checkRulePatterns_good rule (extractArguments rule.blockedCommand (a1 :: rest))
        (extractArguments_good rule.blockedCommand (a1 :: rest))
  · rw [if_pos (by simp [Bool.not_eq_true] at hm ⊢; exact hm)]
    exact goodIssues_false_nil

theorem checkDirectCommand_good (rules : List CommandRule) (call : CallExpr)
    (cmd : List Char) : goodIssues (checkDirectCommand rules call cmd) := by
  induction rules with
  | nil => exact goodIssues_false_nil
  | cons r rs ih =>
    simp only [checkDirectCommand]
    by_cases hb : (checkRuleMatch call cmd r).1 = true
    · simp only [hb, if_true]
      exact ⟨fun _ => (checkRuleMatch_good call cmd r).1 hb, (checkRuleMatch_good call cmd r).2⟩
    · rw [if_neg hb]
      refine ⟨fun h => ?_, fun i hi => ?_⟩
      · have := ih.1 h
        intro hcontra
        rw [List.append_eq_nil] at hcontra
        exact this hcontra.2
      · rw [List.mem_append] at hi
        rcases hi with hi | hi
        · exact (checkRuleMatch_good call cmd r).2 i hi
        · exact ih.2 i hi

theorem checkArgumentsLoop_good (rules : List CommandRule) (args : List Word) :
    goodIssues (checkArgumentsLoop rules args) := by
  induction args with
  | nil => exact goodIssues_false_nil
  | cons arg rest ih =>
    simp only [checkArgumentsLoop]
    split
    · exact ih
    · split
      · refine ⟨(fun _ => by simp), fun i hi => ?_⟩
        simp at hi
        subst hi
        simp [gs]
      · exact ih

theorem detectObfuscation_good (s : List Char) : goodIssues (detectObfuscation s) := by
  unfold detectObfuscation
  by_cases h1 : isLikelyBase64 s = true <;> by_cases h2 : isLikelyHexEncoded s = true <;>
    by_cases h3 : containsReversePattern s = true <;>
    by_cases h4 : containsSubstitutionPattern s = true <;>
    simp [goodIssues, h1, h2, h3, h4] <;> decide


theorem echoEscapesLoop_good (args : List Word) : goodIssues (echoEscapesLoop args) := by
  induction args with
  | nil => exact goodIssues_false_nil
  | cons arg rest ih =>
    simp only [echoEscapesLoop]
    split
    · refine ⟨(fun _ => by simp), fun i hi => ?_⟩
      simp at hi
      subst hi
      decide
    · split
      · refine ⟨(fun _ => by simp), fun i hi => ?_⟩
        simp at hi
        subst hi
        decide
      · exact ih

theorem checkEchoEscapes_good (call : CallExpr) : goodIssues (checkEchoEscapes call) := by
  unfold checkEchoEscapes
  match call.args with
  | [] => exact goodIssues_false_nil
  | a0 :: rest =>
    show goodIssues
      (if ¬ isEchoCommand (resolveStaticWord a0).1 = true then (false, [])
       else echoEscapesLoop rest)
    by_cases he : isEchoCommand (resolveStaticWord a0).1 = true
    · rw [if_neg (not_not_intro he)]
      exact echoEscapesLoop_good rest
    · rw [if_pos he]
      exact goodIssues_false_nil

theorem checkObfuscation_good (call : CallExpr) : goodIssues (checkObfuscation call) := by
  show goodIssues
    (if (detectObfuscation (collectStaticContent call)).1 = true then
      (true, (detectObfuscation (collectStaticContent call)).2)
     else checkEchoEscapes call)
  by_cases h : (detectObfuscation (collectStaticContent call)).1 = true
  · rw [if_pos h]
    exact ⟨fun _ => (detectObfuscation_good _).1 h, (detectObfuscation_good _).2⟩
  · rw [if_neg h]
    exact checkEchoEscapes_good call

/-- The inner branch of `analyzeLiteralList` once the string is kept. -/
theorem analyzeLiteralList_step_good {p q : Bool × List Issue} (hp : goodIssues p)
    (hq : goodIssues q) (str : List Char) :
    goodIssues
      (if p.1 then (true, p.2 ++ [gs "Blocked command found in string: " ++ str])
       else (q.1, p.2 ++ q.2)) := by
  by_cases hb : p.1 = true
  · rw [if_pos hb]
    exact goodIssues_block hp.2 (by simp [gs])
  · rw [if_neg hb]
    exact goodIssues_seq hp.2 hq

theorem analyzeLiteralList_good (rules : List CommandRule)
    (rec : List Char → Bool × List Issue) (hrec : ∀ s, goodIssues (rec s))
    (normalizedCmd : List Char) (lits : List (List Char)) :
    goodIssues (analyzeLiteralList rules rec normalizedCmd lits) := by
  induction lits with
  | nil => exact goodIssues_false_nil
  | cons str rest ih =>
    simp only [analyzeLiteralList]
    split
    · by_cases hk : definitelyLooksLikeCommand rules str = true
      · rw [if_neg (not_not_intro hk)]
        exact analyzeLiteralList_step_good (hrec str) ih str
      · rw [if_pos hk]
        exact ih
    · by_cases hk : looksLikeCommand rules str = true
      · rw [if_neg (not_not_intro hk)]
        exact analyzeLiteralList_step_good (hrec str) ih str
      · rw [if_pos hk]
        exact ih

theorem analyzeLiteralArgs_good (rules : List CommandRule)
    (rec : List Char → Bool × List Issue) (hrec : ∀ s, goodIssues (rec s))
    (normalizedCmd : List Char) (args : List Word) :
    goodIssues (analyzeLiteralArgs rules rec normalizedCmd args) := by
  induction args with
  | nil => exact goodIssues_false_nil
  | cons arg rest ih =>
    simp only [analyzeLiteralArgs]
    have hl := analyzeLiteralList_good rules rec hrec normalizedCmd (extractStringLiterals arg)
    split
    · next hb => exact ⟨fun _ => hl.1 hb, hl.2⟩
    · exact goodIssues_seq hl.2 ih

theorem analyzeStringLiterals_good (rules : List CommandRule)
    (rec : List Char → Bool × List Issue) (hrec : ∀ s, goodIssues (rec s))
    (call : CallExpr) : goodIssues (analyzeStringLiterals rules rec call) := by
  obtain ⟨args⟩ := call
  match args with
  | [] => exact goodIssues_false_nil
  | a0 :: rest =>
    show goodIssues
      (if ¬ stringExecCommands.contains (normalizeCommand (resolveStaticWord a0).1) = true then
        (false, [])
       else analyzeLiteralArgs rules rec (normalizeCommand (resolveStaticWord a0).1) rest)
    by_cases hx : stringExecCommands.contains (normalizeCommand (resolveStaticWord a0).1) = true
    · rw [if_neg (not_not_intro hx)]
      exact analyzeLiteralArgs_good rules rec hrec _ rest
    · rw [if_pos hx]
      exact goodIssues_false_nil

theorem shouldBlockCallExprAux_good (rules : List CommandRule)
    (rec : List Char → Bool × List Issue) (hrec : ∀ s, goodIssues (rec s))
    (call : CallExpr) : goodIssues (shouldBlockCallExprAux rules rec call) := by
  obtain ⟨args⟩ := call
  match args with
  | [] => exact goodIssues_false_nil
  | a0 :: rest =>
    have g0 := checkDynamicCommand_good (resolveStaticWord a0).2
    have g1 := checkDirectCommand_good rules ⟨a0 :: rest⟩ (resolveStaticWord a0).1
    have g2 := checkArgumentsLoop_good rules rest
    have g3 := analyzeStringLiterals_good rules rec hrec ⟨a0 :: rest⟩
    have g4 := checkObfuscation_good ⟨a0 :: rest⟩
    show goodIssues
      (if (checkDynamicCommand (resolveStaticWord a0).2).1 then
        (true, (checkDynamicCommand (resolveStaticWord a0).2).2)
       else if (checkDirectCommand rules ⟨a0 :: rest⟩ (resolveStaticWord a0).1).1 then
        (true, (checkDynamicCommand (resolveStaticWord a0).2).2 ++
          (checkDirectCommand rules ⟨a0 :: rest⟩ (resolveStaticWord a0).1).2)
       else if (checkArgumentsForBlockedCommands rules ⟨a0 :: rest⟩).1 then
        (true, (checkDynamicCommand (resolveStaticWord a0).2).2 ++
          (checkDirectCommand rules ⟨a0 :: rest⟩ (resolveStaticWord a0).1).2 ++
          (checkArgumentsForBlockedCommands rules ⟨a0 :: rest⟩).2)
       else if (analyzeStringLiterals rules rec ⟨a0 :: rest⟩).1 then
        (true, (checkDynamicCommand (resolveStaticWord a0).2).2 ++
          (checkDirectCommand rules ⟨a0 :: rest⟩ (resolveStaticWord a0).1).2 ++
          (checkArgumentsForBlockedCommands rules ⟨a0 :: rest⟩).2 ++
          (analyzeStringLiterals rules rec ⟨a0 :: rest⟩).2)
       else
        ((checkObfuscation ⟨a0 :: rest⟩).1,
          (checkDynamicCommand (resolveStaticWord a0).2).2 ++
          (checkDirectCommand rules ⟨a0 :: rest⟩ (resolveStaticWord a0).1).2 ++
          (checkArgumentsForBlockedCommands rules ⟨a0 :: rest⟩).2 ++
          (analyzeStringLiterals rules rec ⟨a0 :: rest⟩).2 ++
          (checkObfuscation ⟨a0 :: rest⟩).2))
    have g2' : goodIssues (checkArgumentsForBlockedCommands rules ⟨a0 :: rest⟩) := g2
    by_cases h0 : (checkDynamicCommand (resolveStaticWord a0).2).1 = true
    · rw [if_pos h0]
      exact ⟨fun _ => g0.1 h0, g0.2⟩
    · rw [if_neg h0]
      by_cases h1 : (checkDirectCommand rules ⟨a0 :: rest⟩ (resolveStaticWord a0).1).1 = true
      · rw [if_pos h1]
        exact goodIssues_true_append g0.2 (g1.1 h1) g1.2
      · rw [if_neg h1]
        by_cases h2 : (checkArgumentsForBlockedCommands rules ⟨a0 :: rest⟩).1 = true
        · rw [if_pos h2]
          have := goodIssues_seq g0.2 (goodIssues_true_append g1.2 (g2'.1 h2) g2'.2)
          rw [← List.append_assoc] at this
          exact this
        · rw [if_neg h2]
          by_cases h3 : (analyzeStringLiterals rules rec ⟨a0 :: rest⟩).1 = true
          · rw [if_pos h3]
            have := goodIssues_seq g0.2 (goodIssues_seq g1.2
              (goodIssues_true_append g2'.2 (g3.1 h3) g3.2))
            rw [← List.append_assoc, ← List.append_assoc] at this
            exact this
          · rw [if_neg h3]
            have := goodIssues_seq g0.2 (goodIssues_seq g1.2 (goodIssues_seq g2'.2
              (goodIssues_seq g3.2 g4)))
            rw [← List.append_assoc, ← List.append_assoc, ← List.append_assoc] at this
            exact this

theorem analyzeCallsAux_good (rules : List CommandRule)
    (rec : List Char → Bool × List Issue) (hrec : ∀ s, goodIssues (rec s))
    (calls : List CallExpr) : goodIssues (analyzeCallsAux rules rec calls) := by
  induction calls with
  | nil => exact goodIssues_false_nil
  | cons c cs ih =>
    simp only [analyzeCallsAux]
    have hc := shouldBlockCallExprAux_good rules rec hrec c
    split
    · next hb => exact ⟨fun _ => hc.1 hb, hc.2⟩
    · exact goodIssues_seq hc.2 ih

theorem analyzeShellExprRecursive_good (rules : List CommandRule)
    (parser : List Char → Except (List Char) (List CallExpr)) (fuel : Nat) :
    ∀ shellExpr, goodIssues (analyzeShellExprRecursive rules parser fuel shellExpr) := by
  induction fuel with
  | zero =>
    intro shellExpr
    show goodIssues (true, [maxDepthIssue])
    refine ⟨(fun _ => by simp), fun i hi => ?_⟩
    simp at hi
    subst hi
    decide
  | succ f ih =>
    intro shellExpr
    simp only [analyzeShellExprRecursive]
    match parseShellExpression parser shellExpr with
    | .error e =>
      refine ⟨(fun _ => by simp), fun i hi => ?_⟩
      simp at hi
      subst hi
      simp [gs]
    | .ok calls =>
      exact analyzeCallsAux_good rules (analyzeShellExprRecursive rules parser f) ih calls

/-!
### Supporting facts about the string primitives
-/

/-- `containsB` decides the substring (infix) relation. -/
theorem containsB_substring_iff (s sub : List Char) : containsB s sub = true ↔ sub <:+: s := by
  induction s with
  | nil =>
    simp only [containsB, List.isEmpty_iff]
    constructor
    · intro h
      subst h
      exact List.infix_refl []
    · intro h
      exact List.eq_nil_of_infix_nil h
  | cons c t ih =>
    simp only [containsB, Bool.or_eq_true, List.isPrefixOf_iff_prefix, ih,
      List.infix_cons_iff]

/-- A suffix is a substring. -/
theorem containsB_of_hasSuffixB {s sub : List Char} (h : hasSuffixB s sub = true) :
    containsB s sub = true :=
  (containsB_substring_iff s sub).mpr
    (List.IsSuffix.isInfix (List.isSuffixOf_iff_suffix.mp h))

/-- The right half of an append is a substring. -/
theorem containsB_append_right (xs ys : List Char) : containsB (xs ++ ys) ys = true :=
  (containsB_substring_iff _ _).mpr ⟨xs, [], by simp⟩

/-- A `*` entry among the patterns makes `hasBlockedPattern` true on every
text. -/
theorem hasBlockedPattern_of_star {patterns : List (List Char)}
    (h : patterns.contains (gs "*") = true) (text : List Char) :
    hasBlockedPattern text patterns = true := by
  have hmem : gs "*" ∈ patterns := List.mem_of_elem_eq_true h
  unfold hasBlockedPattern
  rw [if_neg (by simp [List.isEmpty_iff]; rintro rfl; cases hmem)]
  rw [List.any_eq_true]
  exact ⟨gs "*", hmem, by simp⟩

/-- `extractArguments` reports dynamic content exactly when some argument word
fails to resolve statically. -/
theorem extractArguments_dyn (c : List Char) (args : List Word) :
    (extractArguments c args).2.1 = args.any (fun w => !(resolveStaticWord w).2) := by
  induction args with
  | nil => rfl
  | cons arg rest ih =>
    simp only [extractArguments, List.any_cons]
    by_cases hst : (resolveStaticWord arg).2 = true
    · rw [if_neg (by simp [hst])]
      match hext : extractArguments c rest with
      | (res, true, iss) =>
        rw [hext] at ih
        simp [hst, ← ih]
      | (res, false, iss) =>
        rw [hext] at ih
        simp [hst, ← ih]
    · simp only [Bool.not_eq_true] at hst
      rw [if_pos (by simp [hst])]
      simp [hst]

/-- On all-static argument words, `extractArguments` returns their resolved
values in order, no dynamic flag and no issues. -/
theorem extractArguments_static (c : List Char) (args : List Word)
    (h : ∀ w ∈ args, (resolveStaticWord w).2 = true) :
    extractArguments c args = (args.map (fun w => (resolveStaticWord w).1), false, []) := by
  induction args with
  | nil => rfl
  | cons arg rest ih =>
    have harg := h arg (by simp)
    simp only [extractArguments]
    rw [if_neg (by simp [harg])]
    rw [ih (fun w hw => h w (by simp [hw]))]
    simp

/-- A word part that the claims call dynamic: a parameter expansion, command
substitution, arithmetic expansion or process substitution, either at top
level or nested inside double quotes. -/
def wordHasDynamicPart (w : Word) : Bool :=
  w.any fun p =>
    match p with
    | .paramExp => true
    | .cmdSubst => true
    | .arithmExp => true
    | .procSubst => true
    | .dblQuoted ps =>
      ps.any fun q =>
        match q with
        | .paramExp => true
        | .cmdSubst => true
        | .arithmExp => true
        | _ => false
    | _ => false

theorem resolveDqStep_false (ps : List DqPart) (acc : List Char) :
    (ps.foldl resolveDqStep (acc, false)).2 = false := by
  induction ps generalizing acc with
  | nil => rfl
  | cons q rest ih =>
    cases q <;> simp only [List.foldl_cons, resolveDqStep] <;> exact ih _

theorem resolveStep_preserves_false (w : List WordPart) (acc : List Char) :
    (w.foldl resolveStep (acc, false)).2 = false := by
  induction w generalizing acc with
  | nil => rfl
  | cons p rest ih =>
    cases p with
    | dblQuoted ps =>
      simp only [List.foldl_cons, resolveStep]
      have h := resolveDqStep_false ps acc
      match hq : ps.foldl resolveDqStep (acc, false) with
      | (a, b) =>
        rw [hq] at h
        subst h
        exact ih a
    | _ =>
      simp only [List.foldl_cons, resolveStep]
      exact ih _

/-- The dynamic test on double-quoted subparts. -/
def dqDynamic (q : DqPart) : Bool :=
  match q with
  | .paramExp => true
  | .cmdSubst => true
  | .arithmExp => true
  | _ => false

theorem resolveDq_dynamic (ps : List DqPart) (h : ps.any dqDynamic = true)
    (acc : List Char × Bool) : (ps.foldl resolveDqStep acc).2 = false := by
  induction ps generalizing acc with
  | nil => cases h
  | cons q rest ih =>
    match q with
    | .lit s =>
      simp only [List.any_cons, dqDynamic, Bool.false_or] at h
      simp only [List.foldl_cons, resolveDqStep]
      exact ih h _
    | .sglQuoted s =>
      simp only [List.foldl_cons, resolveDqStep]
      exact resolveDqStep_false rest _
    | .paramExp =>
      simp only [List.foldl_cons, resolveDqStep]
      exact resolveDqStep_false rest _
    | .cmdSubst =>
      simp only [List.foldl_cons, resolveDqStep]
      exact resolveDqStep_false rest _
    | .arithmExp =>
      simp only [List.foldl_cons, resolveDqStep]
      exact resolveDqStep_false rest _
    | .otherPart =>
      simp only [List.foldl_cons, resolveDqStep]
      exact resolveDqStep_false rest _

theorem resolveFold_dynamic (w : List WordPart) (h : wordHasDynamicPart w = true) :
    ∀ acc, (w.foldl resolveStep acc).2 = false := by
  induction w with
  | nil => cases h
  | cons p rest ih =>
    intro acc
    match p with
    | .lit s =>
      simp only [wordHasDynamicPart, List.any_cons, Bool.false_or] at h
      simp only [List.foldl_cons, resolveStep]
      exact ih h _
    | .sglQuoted s =>
      simp only [wordHasDynamicPart, List.any_cons, Bool.false_or] at h
      simp only [List.foldl_cons, resolveStep]
      exact ih h _
    | .otherPart =>
      simp only [List.foldl_cons, resolveStep]
      exact resolveStep_preserves_false rest _
    | .paramExp =>
      simp only [List.foldl_cons, resolveStep]
      exact resolveStep_preserves_false rest _
    | .cmdSubst =>
      simp only [List.foldl_cons, resolveStep]
      exact resolveStep_preserves_false rest _
    | .arithmExp =>
      simp only [List.foldl_cons, resolveStep]
      exact resolveStep_preserves_false rest _
    | .procSubst =>
      simp only [List.foldl_cons, resolveStep]
      exact resolveStep_preserves_false rest _
    | .dblQuoted ps =>
      simp only [List.foldl_cons, resolveStep]
      by_cases hq : ps.any dqDynamic = true
      · have hdq := resolveDq_dynamic ps hq acc
        match hps : ps.foldl resolveDqStep acc with
        | (a, b) =>
          rw [hps] at hdq
          subst hdq
          exact resolveStep_preserves_false rest a
      · have hrest : wordHasDynamicPart rest = true := by
          have h2 := h
          simp only [wordHasDynamicPart, List.any_cons, Bool.or_eq_true] at h2
          rcases h2 with h2 | h2
          · exact absurd h2 hq
          · exact h2
        exact ih hrest _

/-- A word with a dynamic part never resolves statically. -/
theorem resolveStaticWord_dynamic (w : Word) (h : wordHasDynamicPart w = true) :
    (resolveStaticWord w).2 = false :=
  resolveFold_dynamic w h ([], true)

/-- With a `*` pattern, `checkRulePatterns` blocks any statically extracted
argument list. -/
theorem checkRulePatterns_star (rule : CommandRule)
    (hstar : rule.blockedPatterns.contains (gs "*") = true) (vals : List (List Char)) :
    (checkRulePatterns rule (vals, false, [])).1 = true := by
  unfold checkRulePatterns
  rw [if_neg (by simp)]
  rw [if_pos (by simp only [List.isEmpty_iff]; intro h; rw [h] at hstar; cases hstar)]
  rw [if_pos (hasBlockedPattern_of_star hstar _)]

/-- With no patterns, `checkRulePatterns` allows any statically extracted
argument list, recording nothing. -/
theorem checkRulePatterns_empty (rule : CommandRule) (hpat : rule.blockedPatterns = [])
    (vals : List (List Char)) : checkRulePatterns rule (vals, false, []) = (false, []) := by
  unfold checkRulePatterns
  rw [if_neg (by simp)]
  rw [if_neg (by simp [hpat])]

/-!
### The claims
-/

/-- C1: whenever the top-level analysis (`ShouldBlockShellExpr`) returns
blocked, the issue list read afterwards through `GetIssues` is non-empty and
every issue in it is a non-empty string — for every rule configuration, every
parser behavior and every input. -/
theorem c1_block_implies_issue
    (parser : List Char → Except (List Char) (List CallExpr)) (d : CommandDetector)
    (shellExpr : List Char)
    (hb : (ShouldBlockShellExpr parser d shellExpr).1 = true) :
    GetIssues (ShouldBlockShellExpr parser d shellExpr).2 ≠ [] ∧
      ∀ i ∈ GetIssues (ShouldBlockShellExpr parser d shellExpr).2, i ≠ [] := by
  have hg := analyzeShellExprRecursive_good d.commandRules parser d.maxDepth shellExpr
  exact ⟨hg.1 hb, hg.2⟩

/-- Witness for C1 at a concrete blocking input. -/
theorem c1_block_implies_issue_witness :
    (ShouldBlockShellExpr scenarioOracle (NewCommandDetector gitRules 10) (gs "git push")).1 =
        true ∧
      (GetIssues (ShouldBlockShellExpr scenarioOracle (NewCommandDetector gitRules 10)
          (gs "git push")).2 ≠ [] ∧
        ∀ i ∈ GetIssues (ShouldBlockShellExpr scenarioOracle (NewCommandDetector gitRules 10)
            (gs "git push")).2, i ≠ []) :=
  ⟨by decide,
    c1_block_implies_issue scenarioOracle (NewCommandDetector gitRules 10) (gs "git push")
      (by decide)⟩

/-- C2: the analysis is a total function of an explicit depth budget (the
recursion passes `fuel - 1` where Go increments `currentDepth`, so `fuel = 0`
is exactly the guard `currentDepth + 1 > maxDepth`): an exhausted budget
returns blocked with the max-depth issue as an ordinary value, and on the
concrete 50-layer `sh -c` nesting with `maxDepth = 10` the top-level analysis
returns blocked with the max-depth issue recorded. -/
theorem c2_depth_guard :
    (∀ (rules : List CommandRule) (parser : List Char → Except (List Char) (List CallExpr))
        (shellExpr : List Char),
        analyzeShellExprRecursive rules parser 0 shellExpr = (true, [maxDepthIssue])) ∧
      (ShouldBlockShellExpr nestOracle (NewCommandDetector [] 10) (shNest 50)).1 = true ∧
      maxDepthIssue ∈
        GetIssues (ShouldBlockShellExpr nestOracle (NewCommandDetector [] 10) (shNest 50)).2 :=
  ⟨fun _ _ _ => rfl, by decide, by decide⟩

/-- C3: a parser failure makes the top-level analysis return blocked, with an
issue that contains the parser's error message, delivered as an ordinary
return value. -/
theorem c3_parse_error_blocks
    (parser : List Char → Except (List Char) (List CallExpr)) (d : CommandDetector)
    (shellExpr msg : List Char) (hp : parser shellExpr = .error msg)
    (hd : 1 ≤ d.maxDepth) :
    (ShouldBlockShellExpr parser d shellExpr).1 = true ∧
      ∃ i ∈ GetIssues (ShouldBlockShellExpr parser d shellExpr).2,
        containsB i msg = true := by
  obtain ⟨f, hf⟩ : ∃ f, d.maxDepth = f + 1 := ⟨d.maxDepth - 1, by omega⟩
  unfold ShouldBlockShellExpr GetIssues
  rw [hf]
  simp only [analyzeShellExprRecursive, parseShellExpression, hp]
  refine ⟨by trivial, gs "Unable to parse shell expression: " ++
    (gs "failed to parse shell expression: " ++ msg), by simp, ?_⟩
  rw [← List.append_assoc]
  exact containsB_append_right _ msg

/-- Witness for C3 at a concrete unparseable input. -/
theorem c3_parse_error_blocks_witness :
    scenarioOracle (gs "echo \"unbalanced") = .error (gs "unexpected token") ∧
      ((ShouldBlockShellExpr scenarioOracle (NewCommandDetector [] 10)
          (gs "echo \"unbalanced")).1 = true ∧
        ∃ i ∈ GetIssues (ShouldBlockShellExpr scenarioOracle (NewCommandDetector [] 10)
            (gs "echo \"unbalanced")).2,
          containsB i (gs "unexpected token") = true) :=
  ⟨rfl, c3_parse_error_blocks scenarioOracle (NewCommandDetector [] 10)
    (gs "echo \"unbalanced") (gs "unexpected token") rfl (by decide)⟩

/-- C4: a call expression whose command word has any dynamic part (parameter
expansion, command substitution, arithmetic expansion or process substitution,
quoted or not) is blocked with the dynamic-command issue under every rule set,
and concretely `$CMD push` is blocked with no rules configured. -/
theorem c4_dynamic_command
    : (∀ (rules : List CommandRule) (rec : List Char → Bool × List Issue)
        (call : CallExpr) (w0 : Word) (rest : List Word),
        call.args = w0 :: rest → wordHasDynamicPart w0 = true →
        shouldBlockCallExprAux rules rec call = (true, [dynCmdIssue])) ∧
      ShouldBlockShellExpr scenarioOracle (NewCommandDetector [] 10) (gs "$CMD push") =
        (true, { commandRules := [], maxDepth := 10, issues := [dynCmdIssue],
                 currentDepth := 0 }) := by
  constructor
  · intro rules rec call w0 rest hargs hdyn
    obtain ⟨args⟩ := call
    simp only at hargs
    subst hargs
    have hres := resolveStaticWord_dynamic w0 hdyn
    show (if (checkDynamicCommand (resolveStaticWord w0).2).1 then
        (true, (checkDynamicCommand (resolveStaticWord w0).2).2)
      else _) = (true, [dynCmdIssue])
    rw [hres]
    rfl
  · decide

/-- Witness for C4's universal part at a concrete dynamic command word. -/
theorem c4_dynamic_command_witness :
    shouldBlockCallExprAux [] (fun _ => (false, []))
        ⟨[[WordPart.paramExp], wl "push"]⟩ = (true, [dynCmdIssue]) :=
  c4_dynamic_command.1 [] (fun _ => (false, [])) ⟨[[WordPart.paramExp], wl "push"]⟩
    [WordPart.paramExp] [wl "push"] rfl (by decide)

/-- C9: with the detector's rules and depth bound unchanged, a second
`ShouldBlockShellExpr` on the same input returns the same blocked flag and
leaves the same issue list, because each call resets depth and issues. -/
theorem c9_idempotent (parser : List Char → Except (List Char) (List CallExpr))
    (d : CommandDetector) (shellExpr : List Char) :
    (ShouldBlockShellExpr parser d shellExpr).1 =
        (ShouldBlockShellExpr parser (ShouldBlockShellExpr parser d shellExpr).2 shellExpr).1 ∧
      GetIssues (ShouldBlockShellExpr parser d shellExpr).2 =
        GetIssues
          (ShouldBlockShellExpr parser (ShouldBlockShellExpr parser d shellExpr).2 shellExpr).2 :=
  ⟨rfl, rfl⟩

/-- C6: under `checkRuleMatch`, a rule with no blocked patterns never blocks
the bare command, while a rule whose patterns contain `*` blocks the matching
bare command and the matching command with any static arguments. -/
theorem c6_empty_and_star_patterns :
    (∀ (w0 : Word) (cmd : List Char) (rule : CommandRule),
        rule.blockedPatterns = [] → checkRuleMatch ⟨[w0]⟩ cmd rule = (false, [])) ∧
      (∀ (w0 : Word) (cmd : List Char) (rule : CommandRule),
        isMatchingCommand cmd rule.blockedCommand = true →
        rule.blockedPatterns.contains (gs "*") = true →
        (checkRuleMatch ⟨[w0]⟩ cmd rule).1 = true) ∧
      ∀ (w0 : Word) (args : List Word) (cmd : List Char) (rule : CommandRule),
        isMatchingCommand cmd rule.blockedCommand = true →
        rule.blockedPatterns.contains (gs "*") = true →
        (∀ w ∈ args, (resolveStaticWord w).2 = true) →
        (checkRuleMatch ⟨w0 :: args⟩ cmd rule).1 = true := by
  refine ⟨?_, ?_, ?_⟩
  · intro w0 cmd rule hpat
    unfold checkRuleMatch
    by_cases hm : isMatchingCommand cmd rule.blockedCommand = true
    · rw [if_neg (not_not_intro hm)]
      show checkRulePatterns rule ([], false, []) = (false, [])
      exact checkRulePatterns_empty rule hpat []
    · rw [if_pos hm]
  · intro w0 cmd rule hm hstar
    unfold checkRuleMatch
    rw [if_neg (not_not_intro hm)]
    show (checkRulePatterns rule ([], false, [])).1 = true
    exact checkRulePatterns_star rule hstar []
  · intro w0 args cmd rule hm hstar hstatic
    unfold checkRuleMatch
    rw [if_neg (not_not_intro hm)]
    match args with
    | [] =>
      show (checkRulePatterns rule ([], false, [])).1 = true
      exact checkRulePatterns_star rule hstar []
    | a1 :: rest =>
      show (checkRulePatterns rule (extractArguments rule.blockedCommand (a1 :: rest))).1 = true
      rw [extractArguments_static rule.blockedCommand (a1 :: rest) hstatic]
      exact checkRulePatterns_star rule hstar _

/-- Witness for C6 at a concrete rule and call. -/
theorem c6_empty_and_star_patterns_witness :
    checkRuleMatch ⟨[wl "git"]⟩ (gs "git") ⟨gs "git", []⟩ = (false, []) ∧
      (checkRuleMatch ⟨[wl "git"]⟩ (gs "git") ⟨gs "git", [gs "*"]⟩).1 = true ∧
      (checkRuleMatch ⟨[wl "git", wl "status"]⟩ (gs "git") ⟨gs "git", [gs "*"]⟩).1 = true :=
  ⟨c6_empty_and_star_patterns.1 (wl "git") (gs "git") ⟨gs "git", []⟩ rfl,
    c6_empty_and_star_patterns.2.1 (wl "git") (gs "git") ⟨gs "git", [gs "*"]⟩
      (by decide) (by decide),
    c6_empty_and_star_patterns.2.2 (wl "git") [wl "status"] (gs "git") ⟨gs "git", [gs "*"]⟩
      (by decide) (by decide) (by decide)⟩

/-- C7: command-name matching tolerates path and `.exe` variants — with rule
`{git, [push]}` the four invocation spellings of `git push` are blocked and
`git pull` is not. -/
theorem c7_path_normalization :
    normalizeCommand (gs "/usr/bin/git") = gs "git" ∧
      normalizeCommand (gs "git.exe") = gs "git" ∧
      (ShouldBlockShellExpr scenarioOracle (NewCommandDetector gitRules 10) (gs "git push")).1 =
        true ∧
      (ShouldBlockShellExpr scenarioOracle (NewCommandDetector gitRules 10)
          (gs "/usr/bin/git push")).1 = true ∧
      (ShouldBlockShellExpr scenarioOracle (NewCommandDetector gitRules 10)
          (gs "./git push")).1 = true ∧
      (ShouldBlockShellExpr scenarioOracle (NewCommandDetector gitRules 10)
          (gs "git.exe push")).1 = true ∧
      (ShouldBlockShellExpr scenarioOracle (NewCommandDetector gitRules 10)
          (gs "git pull")).1 = false := by
  refine ⟨by decide, by decide, by decide, by decide, by decide, by decide, by decide⟩

/-- The empty pattern is a prefix of everything. -/
theorem hasPrefixB_nil (s : List Char) : hasPrefixB s [] = true := by
  cases s <;> rfl

/-- C8: `hasBlockedPattern` is case-insensitive in the text; a pattern ending
in `*` matches exactly when the lowercased text starts with the pattern's
(lowercased, star-stripped) prefix or contains a space followed by it; and
consequently rule `{aws, [delete-*, terminate-*]}` blocks
`aws ec2 terminate-instances --instance-ids i-1`. -/
theorem c8_pattern_matching :
    (∀ (text1 text2 : List Char) (patterns : List (List Char)),
        toLowerB text1 = toLowerB text2 →
        hasBlockedPattern text1 patterns = hasBlockedPattern text2 patterns) ∧
      (∀ (text p : List Char), hasSuffixB p (gs "*") = true →
        hasBlockedPattern text [p] =
          (hasPrefixB (toLowerB text) (trimSuffixB (toLowerB p) (gs "*")) ||
            containsB (toLowerB text) (' ' :: trimSuffixB (toLowerB p) (gs "*")))) ∧
      (ShouldBlockShellExpr scenarioOracle
          (NewCommandDetector [⟨gs "aws", [gs "delete-*", gs "terminate-*"]⟩] 10)
          (gs "aws ec2 terminate-instances --instance-ids i-1")).1 = true := by
  refine ⟨?_, ?_, by decide⟩
  · intro text1 text2 patterns h
    unfold hasBlockedPattern
    rw [h]
  · intro text p h
    unfold hasBlockedPattern
    rw [if_neg (by simp)]
    simp only [List.any_cons, List.any_nil, Bool.or_false]
    by_cases hp : p = gs "*"
    · subst hp
      rw [if_pos rfl]
      have : trimSuffixB (toLowerB (gs "*")) (gs "*") = [] := by decide
      rw [this, hasPrefixB_nil]
      simp
    · rw [if_neg hp]
      rw [if_pos (containsB_of_hasSuffixB h)]

/-- Witness for C8: case-invariance at a concrete pair of spellings, and the
glob characterization at the terminate pattern. -/
theorem c8_pattern_matching_witness :
    hasBlockedPattern (gs "GIT Push") [gs "push"] =
        hasBlockedPattern (gs "git push") [gs "push"] ∧
      hasBlockedPattern (gs "EC2 Terminate-instances") [gs "terminate-*"] =
        (hasPrefixB (toLowerB (gs "EC2 Terminate-instances"))
            (trimSuffixB (toLowerB (gs "terminate-*")) (gs "*")) ||
          containsB (toLowerB (gs "EC2 Terminate-instances"))
            (' ' :: trimSuffixB (toLowerB (gs "terminate-*")) (gs "*"))) :=
  ⟨c8_pattern_matching.1 (gs "GIT Push") (gs "git push") [gs "push"] (by decide),
    c8_pattern_matching.2.1 (gs "EC2 Terminate-instances") (gs "terminate-*") (by decide)⟩

/-- C10: in the arguments-as-commands pattern check, a `*` pattern blocks
regardless of the remaining arguments; a non-static, empty or `-`-prefixed
argument is silently omitted (inserting one anywhere changes nothing, and in
particular causes no dynamic-content block); by contrast the direct-match
step's argument extraction flags dynamic content exactly when some argument
word is non-static. -/
theorem c10_argument_filtering :
    (∀ (rule : CommandRule) (args : List Word),
        rule.blockedPatterns.contains (gs "*") = true →
        checkPatternInArgs args rule = true) ∧
      (∀ (rule : CommandRule) (l r : List Word) (w : Word),
        (resolveStaticWord w).2 = false ∨ (resolveStaticWord w).1 = [] ∨
          hasPrefixB (resolveStaticWord w).1 (gs "-") = true →
        checkPatternInArgs (l ++ w :: r) rule = checkPatternInArgs (l ++ r) rule) ∧
      ∀ (c : List Char) (args : List Word),
        (extractArguments c args).2.1 = args.any fun w => !(resolveStaticWord w).2 := by
  refine ⟨?_, ?_, extractArguments_dyn⟩
  · intro rule args hstar
    unfold checkPatternInArgs
    rw [if_neg (by simp only [List.isEmpty_iff]; intro h; rw [h] at hstar; cases hstar)]
    rw [if_pos hstar]
  · intro rule l r w hyp
    have hg : (fun q : List Char × Bool =>
        if q.2 && q.1 ≠ [] && ¬ hasPrefixB q.1 (gs "-") then some q.1 else none)
          (resolveStaticWord w) = none := by
      rcases hyp with h | h | h <;> simp [h]
    unfold checkPatternInArgs
    by_cases he : rule.blockedPatterns.isEmpty = true
    · rw [if_pos he, if_pos he]
    · rw [if_neg he, if_neg he]
      by_cases hstar : rule.blockedPatterns.contains (gs "*") = true
      · rw [if_pos hstar, if_pos hstar]
      · rw [if_neg hstar, if_neg hstar]
        have hmap :
            ((l ++ w :: r).map resolveStaticWord).filterMap (fun q : List Char × Bool =>
              if q.2 && q.1 ≠ [] && ¬ hasPrefixB q.1 (gs "-") then some q.1 else none) =
            ((l ++ r).map resolveStaticWord).filterMap (fun q : List Char × Bool =>
              if q.2 && q.1 ≠ [] && ¬ hasPrefixB q.1 (gs "-") then some q.1 else none) := by
          simp only [List.map_append, List.filterMap_append, List.map_cons,
            List.filterMap_cons, hg]
        rw [hmap]

/-- Witness for C10 at concrete rules and argument lists. -/
theorem c10_argument_filtering_witness :
    checkPatternInArgs [wl "-f", wl "push"] ⟨gs "git", [gs "*"]⟩ = true ∧
      checkPatternInArgs ([wl "a"] ++ [WordPart.paramExp] :: [wl "push"])
          ⟨gs "git", [gs "push"]⟩ =
        checkPatternInArgs ([wl "a"] ++ [wl "push"]) ⟨gs "git", [gs "push"]⟩ :=
  ⟨c10_argument_filtering.1 ⟨gs "git", [gs "*"]⟩ [wl "-f", wl "push"] (by decide),
    c10_argument_filtering.2.1 ⟨gs "git", [gs "push"]⟩ [wl "a"] [wl "push"]
      [WordPart.paramExp] (Or.inl (by decide))⟩

/-- The parsed call of `kubectl delete pod x`. -/
def kubectlPodCall : CallExpr := ⟨[wl "kubectl", wl "delete", wl "pod", wl "x"]⟩

/-- The parsed call of `kubectl delete namespace x`. -/
def kubectlNsCall : CallExpr := ⟨[wl "kubectl", wl "delete", wl "namespace", wl "x"]⟩

/-- On the `kubectl delete pod x` call, the whole per-call pipeline of the
allow-exceptions generation allows, for every implementation of the
unretrieved shell/eval extraction helpers and every recursive analyzer. -/
theorem v2_analyzeCallExpr_pod (extSh : CallExpr → List (List Char) × Bool)
    (extEval : CallExpr → List (List Char)) (rec : List Char → Bool × List Issue) :
    V2.analyzeCallExpr [kubectlRule] extSh extEval rec kubectlPodCall = (false, []) := by
  have h2 : V2.checkShellInterpreter extSh rec ⟨[wl "kubectl", wl "delete", wl "pod", wl "x"]⟩
      (gs "kubectl") = (false, []) := by
    simp [V2.checkShellInterpreter,
      show V2.isShellInterpreter (gs "kubectl") = false from by decide]
  have h3 : V2.checkEvalCommand extEval rec ⟨[wl "kubectl", wl "delete", wl "pod", wl "x"]⟩
      (gs "kubectl") = (false, []) := by
    simp [V2.checkEvalCommand, show V2.isEvalCommand (gs "kubectl") = false from by decide]
  simp only [V2.analyzeCallExpr, kubectlPodCall]
  simp only [show resolveStaticWord (wl "kubectl") = (gs "kubectl", true) from by decide]
  simp only [show checkDynamicCommand true = (false, []) from by decide]
  simp only [show V2.checkDirectCommand [kubectlRule]
    ⟨[wl "kubectl", wl "delete", wl "pod", wl "x"]⟩ (gs "kubectl") = (false, []) from by decide]
  rw [h2, h3]
  simp only [show V2.checkExecutionPatterns [kubectlRule]
    ⟨[wl "kubectl", wl "delete", wl "pod", wl "x"]⟩ (gs "kubectl") = (false, []) from by decide]
  simp only [show V2.checkObfuscation ⟨[wl "kubectl", wl "delete", wl "pod", wl "x"]⟩ =
    (false, []) from by decide]
  simp

/-- On the `kubectl delete namespace x` call, the pipeline blocks at the
direct rule match, before the parameterized helpers could be consulted. -/
theorem v2_analyzeCallExpr_ns (extSh : CallExpr → List (List Char) × Bool)
    (extEval : CallExpr → List (List Char)) (rec : List Char → Bool × List Issue) :
    V2.analyzeCallExpr [kubectlRule] extSh extEval rec kubectlNsCall =
      (true, [gs "Blocked kubectl pattern detected"]) := by
  simp only [V2.analyzeCallExpr, kubectlNsCall]
  simp only [show resolveStaticWord (wl "kubectl") = (gs "kubectl", true) from by decide]
  simp only [show checkDynamicCommand true = (false, []) from by decide]
  simp only [show V2.checkDirectCommand [kubectlRule]
    ⟨[wl "kubectl", wl "delete", wl "namespace", wl "x"]⟩ (gs "kubectl") =
      (true, [gs "Blocked kubectl pattern detected"]) from by decide]
  simp

/-- C5: under the allow-exceptions generation, a matching exception suppresses
the rule's block before the blocked patterns are consulted (for every rule,
whatever its blocked patterns), and concretely with rule
`{kubectl, [delete], exceptions [delete pod]}` the input
`kubectl delete pod x` is allowed while `kubectl delete namespace x` is
blocked — for every implementation of the unretrieved extraction helpers. -/
theorem c5_allow_exceptions :
    (∀ (cmd : List Char) (rule : V2.CommandRule) (w0 : Word) (args : List Word),
        args ≠ [] → (∀ w ∈ args, (resolveStaticWord w).2 = true) →
        V2.hasAllowException (joinSpace (args.map fun w => (resolveStaticWord w).1))
          rule.allowExceptions = true →
        (V2.checkRuleMatch ⟨w0 :: args⟩ cmd rule).1 = false) ∧
      (∀ (extSh : CallExpr → List (List Char) × Bool)
          (extEval : CallExpr → List (List Char)),
        (V2.ShouldBlockCommand scenarioOracle extSh extEval [kubectlRule] 10
          (gs "kubectl delete pod x")).1 = false) ∧
      ∀ (extSh : CallExpr → List (List Char) × Bool)
        (extEval : CallExpr → List (List Char)),
        (V2.ShouldBlockCommand scenarioOracle extSh extEval [kubectlRule] 10
          (gs "kubectl delete namespace x")).1 = true := by
  refine ⟨?_, ?_, ?_⟩
  · intro cmd rule w0 args hne hstatic hexc
    match args with
    | a1 :: rest =>
      unfold V2.checkRuleMatch
      by_cases hm : V2.isMatchingCommand cmd rule.command = true
      · rw [if_neg (not_not_intro hm)]
        rw [if_neg (by simp)]
        rw [show (⟨w0 :: a1 :: rest⟩ : CallExpr).args.drop 1 = a1 :: rest from rfl]
        rw [extractArguments_static rule.command (a1 :: rest) hstatic]
        rw [if_neg (by simp)]
        rw [if_pos hexc]
      · rw [if_pos hm]
  · intro extSh extEval
    unfold V2.ShouldBlockCommand
    rw [show (if (10 : Int) ≤ 0 then 10 else (10 : Int).toNat) = 9 + 1 from by decide]
    simp only [V2.analyzeCommandRecursive]
    rw [show parseShellExpression scenarioOracle (gs "kubectl delete pod x") =
      Except.ok [⟨[wl "kubectl", wl "delete", wl "pod", wl "x"]⟩] from rfl]
    simp only [V2.analyzeCalls]
    rw [show (⟨[wl "kubectl", wl "delete", wl "pod", wl "x"]⟩ : CallExpr) = kubectlPodCall
      from rfl]
    rw [v2_analyzeCallExpr_pod extSh extEval]
    simp [V2.analyzeCalls]
  · intro extSh extEval
    unfold V2.ShouldBlockCommand
    rw [show (if (10 : Int) ≤ 0 then 10 else (10 : Int).toNat) = 9 + 1 from by decide]
    simp only [V2.analyzeCommandRecursive]
    rw [show parseShellExpression scenarioOracle (gs "kubectl delete namespace x") =
      Except.ok [⟨[wl "kubectl", wl "delete", wl "namespace", wl "x"]⟩] from rfl]
    simp only [V2.analyzeCalls]
    rw [show (⟨[wl "kubectl", wl "delete", wl "namespace", wl "x"]⟩ : CallExpr) = kubectlNsCall
      from rfl]
    rw [v2_analyzeCallExpr_ns extSh extEval]
    simp

/-- Witness for C5's exception-precedence part at the kubectl rule. -/
theorem c5_allow_exceptions_witness :
    (V2.checkRuleMatch ⟨[wl "kubectl", wl "delete", wl "pod", wl "x"]⟩ (gs "kubectl")
      kubectlRule).1 = false :=
  c5_allow_exceptions.1 (gs "kubectl") kubectlRule (wl "kubectl")
    [wl "delete", wl "pod", wl "x"] (by simp) (by decide) (by decide)
